import Mathlib

/-!
# `vector.h`: raw storage and the dynamic array built on it

A shallow embedding of the two class templates of `src/vector.h`.

* A block of raw memory is a list of slots; a slot is `none` while it is
  uninitialized (or after its object was destroyed) and `some x` while it holds
  a live object of value `x`.  A `RawMemory` owns its block exclusively, so the
  pointer `buffer_` is represented by the block it points to; the null pointer
  is the block without slots.
* Pointers into the block of a vector (iterators, `T&` results) are offsets
  from the start of that block: `begin()` is `0` and `end()` is `size_`.
* The element type `T` is described by an `Elem` record.  Of the operations on
  `T` only the copy constructor can throw; whether its `i`-th invocation does is
  given by `Elem.copyThrows`, and a `World` carries the number of invocations so
  far.  Moves, assignments and value-initialization always succeed.
* `RawMemory::Allocate(n)` calls `operator new(n * sizeof(T))`.  The product is
  taken in `size_t`, that is modulo `SIZE_MAX + 1`, and the block obtained has
  room for as many objects as its bytes allow; `operator new` throws
  `std::bad_alloc` on the requests for which `Elem.newThrows` says so.  A `World`
  counts the requests made, those that threw and those whose byte count wrapped
  around.
* A block has the slots it was allocated with: a write to a slot outside the
  block is lost and a read from there finds no object (the source has undefined
  behaviour at that point).
* A `World` also records every block given back to the allocator, with the
  state of its slots at that moment.
* Every member function takes the object it is called on and the world, and
  returns both together with the result; `ret = none` says that an exception
  left the function.
* Sizes, capacities and offsets are natural numbers.  The only `size_t`
  expressions of the source that can leave the range of `size_t` are the byte
  count `n * sizeof(T)` of `Allocate`, which is modelled with its wrap-around,
  and `Capacity() * 2`, which is not: it is evaluated only when `size_` equals
  the capacity and wraps only for a capacity of at least `2 ^ 63`, and a vector
  with so many elements cannot exist.
-/

namespace JustForFan

/-- One slot of a raw block: `none` is uninitialized storage, `some x` a live object. -/
abbrev Slot (α : Type) := Option α

/-- The element type `T` as the container sees it, and the behaviour of `operator new`
on the requests made for it. -/
structure Elem (α : Type) where
  /-- Value of `std::is_nothrow_move_constructible_v<T> || !std::is_copy_constructible_v<T>`. -/
  relocByMove : Bool
  /-- State in which a move (construction or assignment) leaves its source. -/
  movedFrom : α → α
  /-- Result of value-initialization, `T()`. -/
  valueInit : α
  /-- Whether the `i`-th invocation of the copy constructor (counted from 1) throws. -/
  copyThrows : Nat → Bool
  /-- The value of `sizeof(T)`. -/
  sizeof : Nat
  /-- Whether the `i`-th call of `operator new` (counted from 1), made for `bytes` bytes,
  throws `std::bad_alloc`. -/
  newThrows : Nat → Nat → Bool

/-- What the program has done so far, outside the vector itself. -/
structure World (α : Type) where
  /-- Number of copy-constructor invocations made so far. -/
  copies : Nat
  /-- The blocks handed to `operator delete`, with their slots as they were then. -/
  released : List (List (Slot α))
  /-- Number of calls of `operator new` made so far. -/
  requests : Nat := 0
  /-- Number of those calls that threw `std::bad_alloc`. -/
  failed : Nat := 0
  /-- Number of those calls whose byte count `n * sizeof(T)` wrapped around in `size_t`
  and that returned a block, which then has room for fewer than `n` objects. -/
  wrapped : Nat := 0
deriving DecidableEq, Repr

/-- The largest value of `size_t`, here of 64 bits; arithmetic in `size_t` is modulo
`SIZE_MAX + 1`. -/
def SIZE_MAX : Nat :=
  2 ^ 64 - 1

/-- Read one slot of a block; outside the block there is no object. -/
def slot {α : Type} (buf : List (Slot α)) (i : Nat) : Slot α :=
  buf.getD i none

/-! ## Library algorithms of `<memory>` and `<algorithm>` on blocks -/

/-- The call `std::destroy_n(buf + first, n)`. -/
def destroy_n {α : Type} : Nat → List (Slot α) → Nat → List (Slot α)
  | 0, buf, _ => buf
  | n + 1, buf, first => destroy_n n (buf.set first none) (first + 1)

/-- The call `std::uninitialized_value_construct_n(buf + first, n)`. -/
def uninitialized_value_construct_n {α : Type} (e : Elem α) :
    Nat → List (Slot α) → Nat → List (Slot α)
  | 0, buf, _ => buf
  | n + 1, buf, first =>
    uninitialized_value_construct_n e n (buf.set first (some e.valueInit)) (first + 1)

/-- Result of `std::uninitialized_copy_n`: the destination block, the copy count, and
whether the call returned (`ok = false`: a copy threw and the exception leaves). -/
structure CopyResult (α : Type) where
  dst : List (Slot α)
  copies : Nat
  ok : Bool
deriving DecidableEq, Repr

/-- The call `std::uninitialized_copy_n(src + first, n, dst + d)` with `c` copies made
before it.  When a copy throws, the objects the call has constructed are destroyed
again before the exception leaves. -/
def uninitialized_copy_n {α : Type} (e : Elem α) (src : List (Slot α)) :
    Nat → Nat → List (Slot α) → Nat → Nat → CopyResult α
  | 0, _, dst, _, c => ⟨dst, c, true⟩
  | n + 1, first, dst, d, c =>
    if e.copyThrows (c + 1) then ⟨dst, c + 1, false⟩
    else
      let r := uninitialized_copy_n e src n (first + 1) (dst.set d (slot src first)) (d + 1) (c + 1)
      if r.ok then r else ⟨r.dst.set d none, r.copies, false⟩

/-- The call `std::uninitialized_move_n(src + first, n, dst + d)` between two blocks;
returns the source block and the destination block. -/
def uninitialized_move_n {α : Type} (e : Elem α) :
    Nat → List (Slot α) → Nat → List (Slot α) → Nat → List (Slot α) × List (Slot α)
  | 0, src, _, dst, _ => (src, dst)
  | n + 1, src, first, dst, d =>
    uninitialized_move_n e n (src.set first ((slot src first).map e.movedFrom)) (first + 1)
      (dst.set d (slot src first)) (d + 1)

/-- The loop of `std::move(first, last, d_first)` inside one block, `n` steps:
the assignment `*d_first++ = std::move(*first++)`. -/
def move_n {α : Type} (e : Elem α) : Nat → List (Slot α) → Nat → Nat → List (Slot α)
  | 0, buf, _, _ => buf
  | n + 1, buf, first, d_first =>
    move_n e n ((buf.set d_first (slot buf first)).set first ((slot buf first).map e.movedFrom))
      (first + 1) (d_first + 1)

/-- The algorithm `std::move(buf + first, buf + last, buf + d_first)`. -/
def std_move {α : Type} (e : Elem α) (buf : List (Slot α)) (first last d_first : Nat) :
    List (Slot α) :=
  move_n e (last - first) buf first d_first

/-- The loop of `std::move_backward`, `n` steps:
the assignment `*(--d_last) = std::move(*(--last))`. -/
def move_backward_n {α : Type} (e : Elem α) : Nat → List (Slot α) → Nat → Nat → List (Slot α)
  | 0, buf, _, _ => buf
  | n + 1, buf, last, d_last =>
    move_backward_n e n
      ((buf.set (d_last - 1) (slot buf (last - 1))).set (last - 1)
        ((slot buf (last - 1)).map e.movedFrom))
      (last - 1) (d_last - 1)

/-- The algorithm `std::move_backward(buf + first, buf + last, buf + d_last)`. -/
def move_backward {α : Type} (e : Elem α) (buf : List (Slot α)) (first last d_last : Nat) :
    List (Slot α) :=
  move_backward_n e (last - first) buf last d_last

/-! ## Constructor arguments -/

/-- A `const T&` parameter: it refers to an object outside the vector, or to the
element at offset `i` of the vector the call is made on. -/
inductive ConstRef (α : Type) where
  | outside (x : α)
  | element (i : Nat)
deriving DecidableEq, Repr

/-- The forwarded arguments `args...` of `EmplaceBack` and `Emplace` as the two
overloads of `PushBack` and `Insert` pass them: a `const T&` (copy construction) or
a `T&&` (move construction from an object in state `x`). -/
inductive Arg (α : Type) where
  | copy (r : ConstRef α)
  | move (x : Slot α)
deriving DecidableEq, Repr

/-- The object a `const T&` refers to, given the block of the vector. -/
def ConstRef.read {α : Type} (own : List (Slot α)) : ConstRef α → Slot α
  | .outside x => some x
  | .element i => slot own i

/-- The copy construction `T(value)` after `c` earlier copies: the new object, or `none`
when the constructor throws, and the new copy count. -/
def copy_construct {α : Type} (e : Elem α) (own : List (Slot α)) (value : ConstRef α)
    (c : Nat) : Option (Slot α) × Nat :=
  if e.copyThrows (c + 1) then (none, c + 1) else (some (value.read own), c + 1)

/-- The construction `T(std::forward<Args>(args)...)`: the new object, or `none` when the
constructor throws, and the new copy count. -/
def construct {α : Type} (e : Elem α) (own : List (Slot α)) (args : Arg α) (c : Nat) :
    Option (Slot α) × Nat :=
  match args with
  | .copy r => copy_construct e own r c
  | .move x => (some x, c)

/-! ## `RawMemory<T>` -/

/-- The class `RawMemory<T>`: the owned block and the capacity recorded for it. -/
structure RawMemory (α : Type) where
  buffer_ : List (Slot α) := []
  capacity_ : Nat := 0
deriving DecidableEq, Repr

/-- The static `Allocate(n)`: the null pointer for `n = 0`, and otherwise the block that
`operator new(n * sizeof(T))` returns, or `none` when that call throws `std::bad_alloc`.
The byte count is the product in `size_t`.  When the product did not wrap around, the
block has room for `n` objects; when it did, the block is the smaller one of
`(n * sizeof(T)) mod (SIZE_MAX + 1)` bytes. -/
def RawMemory.Allocate {α : Type} (e : Elem α) (n : Nat) (w : World α) :
    Option (List (Slot α)) × World α :=
  if n ≠ 0 then
    let bytes := (n * e.sizeof) % (SIZE_MAX + 1)
    if e.newThrows (w.requests + 1) bytes then
      (none, { w with requests := w.requests + 1, failed := w.failed + 1 })
    else if bytes = n * e.sizeof then
      (some (List.replicate n none), { w with requests := w.requests + 1 })
    else
      (some (List.replicate (bytes / e.sizeof) none),
        { w with requests := w.requests + 1, wrapped := w.wrapped + 1 })
  else (some [], w)

/-- The constructor `RawMemory(size_t capacity)`: the new object, or `none` when
`Allocate` is left by `std::bad_alloc`. -/
def RawMemory.withCapacity {α : Type} (e : Elem α) (capacity : Nat) (w : World α) :
    Option (RawMemory α) × World α :=
  let a := RawMemory.Allocate e capacity w
  (a.1.map fun buffer => { buffer_ := buffer, capacity_ := capacity }, a.2)

/-- The member `Swap(other)`: returns the object and `other` after the exchange. -/
def RawMemory.Swap {α : Type} (m other : RawMemory α) : RawMemory α × RawMemory α :=
  ({ buffer_ := other.buffer_, capacity_ := other.capacity_ },
   { buffer_ := m.buffer_, capacity_ := m.capacity_ })

/-- The move constructor `RawMemory(RawMemory&& other)`: the new object and `other`
afterwards. -/
def RawMemory.moveCtor {α : Type} (other : RawMemory α) : RawMemory α × RawMemory α :=
  RawMemory.Swap {} other

/-- The move assignment `operator=(RawMemory&& rhs)`: the object and `rhs` afterwards. -/
def RawMemory.moveAssign {α : Type} (m rhs : RawMemory α) : RawMemory α × RawMemory α :=
  m.Swap rhs

/-- The member `GetAddress()`. -/
def RawMemory.GetAddress {α : Type} (m : RawMemory α) : List (Slot α) :=
  m.buffer_

/-- The member `Capacity()`. -/
def RawMemory.Capacity {α : Type} (m : RawMemory α) : Nat :=
  m.capacity_

/-- The member `operator[](index)`. -/
def RawMemory.index {α : Type} (m : RawMemory α) (index : Nat) : Slot α :=
  slot m.buffer_ index

/-- The destructor `~RawMemory()`, that is `Deallocate(buffer_)`: the block goes back to
the allocator as it is. -/
def RawMemory.Deallocate {α : Type} (m : RawMemory α) (w : World α) : World α :=
  { w with released := w.released ++ [m.buffer_] }

/-! ## `Vector<T>` -/

/-- The class `Vector<T>`; `Vector()` is the default value. -/
structure Vector (α : Type) where
  data_ : RawMemory α := {}
  size_ : Nat := 0
deriving DecidableEq, Repr

/-- What a member function leaves behind: the vector it was called on, the world, and
the returned value (`none` when an exception propagates to the caller). -/
structure Outcome (α ρ : Type) where
  self : Vector α
  world : World α
  ret : Option ρ

/-- The member `Size()`. -/
def Vector.Size {α : Type} (v : Vector α) : Nat :=
  v.size_

/-- The member `Capacity()`. -/
def Vector.Capacity {α : Type} (v : Vector α) : Nat :=
  v.data_.Capacity

/-- The members `begin()` and `cbegin()`, as an offset into the block. -/
def Vector.cbegin {α : Type} (_v : Vector α) : Nat :=
  0

/-- The members `end()` and `cend()`, as an offset into the block. -/
def Vector.cend {α : Type} (v : Vector α) : Nat :=
  v.size_

/-- The member `operator[](index)`. -/
def Vector.index {α : Type} (v : Vector α) (index : Nat) : Slot α :=
  v.data_.index index

/-- The sequence read by iterating from `begin()` to `end()`. -/
def Vector.toList {α : Type} (v : Vector α) : List (Slot α) :=
  (List.range (v.cend - v.cbegin)).map fun i => v.index (v.cbegin + i)

/-- The private static `Destroy(buf)`. -/
def Vector.Destroy {α : Type} (buf : List (Slot α)) (i : Nat) : List (Slot α) :=
  buf.set i none

/-- The private static `DestroyN(buf, n)`. -/
def Vector.DestroyN {α : Type} : Nat → List (Slot α) → Nat → List (Slot α)
  | 0, buf, _ => buf
  | n + 1, buf, first => Vector.DestroyN n (Vector.Destroy buf first) (first + 1)

/-- The destructor `~Vector()` followed by that of the member `data_`. -/
def Vector.destruct {α : Type} (v : Vector α) (w : World α) : World α :=
  RawMemory.Deallocate { v.data_ with buffer_ := destroy_n v.size_ v.data_.buffer_ 0 } w

/-- The copy constructor `Vector(const Vector& other)`: the new vector, or `none` when
the allocation or a copy throws (after a copy threw, the member `data_` is released). -/
def Vector.copyCtor {α : Type} (e : Elem α) (other : Vector α) (w : World α) :
    Option (Vector α) × World α :=
  let a := RawMemory.withCapacity e other.size_ w
  match a.1 with
  | none => (none, a.2)
  | some data =>
    let r := uninitialized_copy_n e other.data_.buffer_ other.size_ 0 data.buffer_ 0 a.2.copies
    if r.ok then
      (some { data_ := { data with buffer_ := r.dst }, size_ := other.size_ },
       { a.2 with copies := r.copies })
    else
      (none, RawMemory.Deallocate { data with buffer_ := r.dst } { a.2 with copies := r.copies })

/-- The move constructor `Vector(Vector&& other)`: the new vector and `other` afterwards. -/
def Vector.moveCtor {α : Type} (other : Vector α) : Vector α × Vector α :=
  let p := RawMemory.moveCtor other.data_
  ({ data_ := p.1, size_ := other.size_ }, { data_ := p.2, size_ := 0 })

/-- The member `Swap(other)`: the vector and `other` afterwards. -/
def Vector.Swap {α : Type} (v other : Vector α) : Vector α × Vector α :=
  let p := v.data_.Swap other.data_
  ({ data_ := p.1, size_ := other.size_ }, { data_ := p.2, size_ := v.size_ })

/-- The move assignment `operator=(Vector&& rhs)`: the vector and `rhs` afterwards. -/
def Vector.moveAssign {α : Type} (v rhs : Vector α) : Vector α × Vector α :=
  let p := v.data_.Swap rhs.data_
  ({ data_ := p.1, size_ := rhs.size_ }, { data_ := p.2, size_ := v.size_ })

/-- The member `Reserve(new_capacity)`. -/
def Vector.Reserve {α : Type} (e : Elem α) (v : Vector α) (new_capacity : Nat) (w : World α) :
    Outcome α Unit :=
  if new_capacity ≤ v.data_.Capacity then ⟨v, w, some ()⟩
  else
    let a := RawMemory.withCapacity e new_capacity w
    match a.1 with
    | none => ⟨v, a.2, none⟩
    | some new_data =>
      if e.relocByMove then
        let p := uninitialized_move_n e v.size_ v.data_.GetAddress 0 new_data.GetAddress 0
        let old := destroy_n v.size_ p.1 0
        let s := RawMemory.Swap { v.data_ with buffer_ := old } { new_data with buffer_ := p.2 }
        ⟨{ v with data_ := s.1 }, s.2.Deallocate a.2, some ()⟩
      else
        let r := uninitialized_copy_n e v.data_.GetAddress v.size_ 0 new_data.GetAddress 0
          a.2.copies
        if r.ok then
          let old := destroy_n v.size_ v.data_.GetAddress 0
          let s := RawMemory.Swap { v.data_ with buffer_ := old }
            { new_data with buffer_ := r.dst }
          ⟨{ v with data_ := s.1 }, s.2.Deallocate { a.2 with copies := r.copies }, some ()⟩
        else
          ⟨v, RawMemory.Deallocate { new_data with buffer_ := r.dst }
            { a.2 with copies := r.copies }, none⟩

/-- The member `EmplaceBack(args...)`; the returned `T&` is the offset of the new element. -/
def Vector.EmplaceBack {α : Type} (e : Elem α) (v : Vector α) (args : Arg α) (w : World α) :
    Outcome α Nat :=
  if v.Capacity = 0 then
    let a := RawMemory.withCapacity e 1 w
    match a.1 with
    | none => ⟨v, a.2, none⟩
    | some new_data =>
      let k := construct e v.data_.buffer_ args a.2.copies
      match k.1 with
      | none => ⟨v, new_data.Deallocate { a.2 with copies := k.2 }, none⟩
      | some x =>
        let s := RawMemory.Swap v.data_ { new_data with buffer_ := new_data.GetAddress.set 0 x }
        ⟨{ data_ := s.1, size_ := v.size_ + 1 }, s.2.Deallocate { a.2 with copies := k.2 },
          some (v.size_ + 1 - 1)⟩
  else if v.Capacity = v.size_ then
    let a := RawMemory.withCapacity e (v.Capacity * 2) w
    match a.1 with
    | none => ⟨v, a.2, none⟩
    | some new_data =>
      let k := construct e v.data_.buffer_ args a.2.copies
      match k.1 with
      | none => ⟨v, new_data.Deallocate { a.2 with copies := k.2 }, none⟩
      | some x =>
        let nd := new_data.GetAddress.set v.size_ x
        if e.relocByMove then
          let p := uninitialized_move_n e v.size_ v.data_.GetAddress 0 nd 0
          let old := destroy_n v.size_ p.1 0
          let s := RawMemory.Swap { v.data_ with buffer_ := old } { new_data with buffer_ := p.2 }
          ⟨{ data_ := s.1, size_ := v.size_ + 1 }, s.2.Deallocate { a.2 with copies := k.2 },
            some (v.size_ + 1 - 1)⟩
        else
          let r := uninitialized_copy_n e v.data_.GetAddress v.size_ 0 nd 0 k.2
          if r.ok then
            let old := destroy_n v.size_ v.data_.GetAddress 0
            let s := RawMemory.Swap { v.data_ with buffer_ := old }
              { new_data with buffer_ := r.dst }
            ⟨{ data_ := s.1, size_ := v.size_ + 1 },
              s.2.Deallocate { a.2 with copies := r.copies }, some (v.size_ + 1 - 1)⟩
          else
            ⟨v, RawMemory.Deallocate { new_data with buffer_ := r.dst }
              { a.2 with copies := r.copies }, none⟩
  else
    let k := construct e v.data_.buffer_ args w.copies
    match k.1 with
    | none => ⟨v, { w with copies := k.2 }, none⟩
    | some x =>
      ⟨{ data_ := { v.data_ with buffer_ := v.data_.GetAddress.set v.size_ x },
         size_ := v.size_ + 1 },
        { w with copies := k.2 }, some (v.size_ + 1 - 1)⟩

/-- The member `Resize(new_size)`. -/
def Vector.Resize {α : Type} (e : Elem α) (v : Vector α) (new_size : Nat) (w : World α) :
    Outcome α Unit :=
  if new_size = v.size_ then ⟨v, w, some ()⟩
  else if new_size > v.size_ then
    let r := v.Reserve e new_size w
    match r.ret with
    | none => r
    | some _ =>
      let buf := uninitialized_value_construct_n e (r.self.Capacity - r.self.size_)
        r.self.data_.buffer_ r.self.size_
      ⟨{ data_ := { r.self.data_ with buffer_ := buf }, size_ := r.self.Capacity }, r.world,
        some ()⟩
  else
    ⟨{ v with
        data_ := { v.data_ with buffer_ := destroy_n (v.size_ - new_size) v.data_.buffer_ new_size },
        size_ := new_size },
      w, some ()⟩

/-- The overload `PushBack(const T& value)`. -/
def Vector.PushBack {α : Type} (e : Elem α) (v : Vector α) (value : ConstRef α) (w : World α) :
    Outcome α Unit :=
  let r := v.EmplaceBack e (.copy value) w
  ⟨r.self, r.world, r.ret.map fun _ => ()⟩

/-- The overload `PushBack(T&& value)`. -/
def Vector.PushBackMove {α : Type} (e : Elem α) (v : Vector α) (value : α) (w : World α) :
    Outcome α Unit :=
  let r := v.EmplaceBack e (.move (some value)) w
  ⟨r.self, r.world, r.ret.map fun _ => ()⟩

/-- The member `PopBack()`; it may only be called on a non-empty vector. -/
def Vector.PopBack {α : Type} (v : Vector α) : Vector α :=
  { data_ := { v.data_ with buffer_ := Vector.Destroy v.data_.buffer_ (v.size_ - 1) },
    size_ := v.size_ - 1 }

/-- The member `Emplace(pos, args...)`; `pos` and the returned iterator are offsets. -/
def Vector.Emplace {α : Type} (e : Elem α) (v : Vector α) (pos : Nat) (args : Arg α)
    (w : World α) : Outcome α Nat :=
  let position := pos - v.cbegin
  if pos = v.cend then
    let r := v.EmplaceBack e args w
    ⟨r.self, r.world, r.ret.map fun _ => r.self.cbegin + position⟩
  else if v.Capacity = 0 then
    let a := RawMemory.withCapacity e 1 w
    match a.1 with
    | none => ⟨v, a.2, none⟩
    | some new_data =>
      let k := construct e v.data_.buffer_ args a.2.copies
      match k.1 with
      | none => ⟨v, new_data.Deallocate { a.2 with copies := k.2 }, none⟩
      | some x =>
        let s := RawMemory.Swap v.data_ { new_data with buffer_ := new_data.GetAddress.set 0 x }
        ⟨{ data_ := s.1, size_ := v.size_ + 1 }, s.2.Deallocate { a.2 with copies := k.2 },
          some (v.cbegin + position)⟩
  else if v.size_ = v.Capacity then
    let a := RawMemory.withCapacity e (v.Capacity * 2) w
    match a.1 with
    | none => ⟨v, a.2, none⟩
    | some new_data =>
      let k := construct e v.data_.buffer_ args a.2.copies
      match k.1 with
      | none => ⟨v, new_data.Deallocate { a.2 with copies := k.2 }, none⟩
      | some x =>
        let nd := new_data.GetAddress.set position x
        if e.relocByMove then
          -- the elements before pos, then the elements after pos
          let p := uninitialized_move_n e position v.data_.GetAddress 0 nd 0
          let q := uninitialized_move_n e (v.size_ - position) p.1 pos p.2 (position + 1)
          let old := destroy_n v.size_ q.1 0
          let s := RawMemory.Swap { v.data_ with buffer_ := old } { new_data with buffer_ := q.2 }
          ⟨{ data_ := s.1, size_ := v.size_ + 1 }, s.2.Deallocate { a.2 with copies := k.2 },
            some (v.cbegin + position)⟩
        else
          let r := uninitialized_copy_n e v.data_.GetAddress position 0 nd 0 k.2
          if r.ok then
            let r2 := uninitialized_copy_n e v.data_.GetAddress (v.size_ - position) pos r.dst
              (position + 1) r.copies
            -- the handler of the second try block destroys the relocated front part and
            -- does not rethrow
            let nd2 := if r2.ok then r2.dst else destroy_n (position - 0) r2.dst 0
            let old := destroy_n v.size_ v.data_.GetAddress 0
            let s := RawMemory.Swap { v.data_ with buffer_ := old }
              { new_data with buffer_ := nd2 }
            ⟨{ data_ := s.1, size_ := v.size_ + 1 },
              s.2.Deallocate { a.2 with copies := r2.copies }, some (v.cbegin + position)⟩
          else
            -- the handler of the first try block: std::destroy_at(new_data + position); throw
            ⟨v, RawMemory.Deallocate { new_data with buffer_ := r.dst.set position none }
              { a.2 with copies := r.copies }, none⟩
  else
    let k := construct e v.data_.buffer_ args w.copies
    match k.1 with
    | none => ⟨v, { w with copies := k.2 }, none⟩
    | some object =>
      let b1 := (v.data_.buffer_.set v.cend (slot v.data_.buffer_ (v.cend - 1))).set (v.cend - 1)
        ((slot v.data_.buffer_ (v.cend - 1)).map e.movedFrom)
      let b2 := move_backward e b1 pos (v.cend - 1) v.cend
      let b3 := b2.set pos object
      ⟨{ data_ := { v.data_ with buffer_ := b3 }, size_ := v.size_ + 1 },
        { w with copies := k.2 }, some (v.cbegin + position)⟩

/-- The member `Erase(pos)`: the vector afterwards and the returned iterator; `pos` must
refer to an element. -/
def Vector.Erase {α : Type} (e : Elem α) (v : Vector α) (pos : Nat) : Vector α × Nat :=
  let b1 := std_move e v.data_.buffer_ (pos + 1) v.cend pos
  let b2 := Vector.Destroy b1 (v.cend - 1)
  ({ data_ := { v.data_ with buffer_ := b2 }, size_ := v.size_ - 1 }, pos)

/-- The overload `Insert(pos, const T& value)`. -/
def Vector.Insert {α : Type} (e : Elem α) (v : Vector α) (pos : Nat) (value : ConstRef α)
    (w : World α) : Outcome α Nat :=
  let aliased : Bool :=
    match value with
    | .outside _ => false
    | .element i => decide (0 ≤ i ∧ i ≤ v.size_ - 1)
  if v.size_ ≠ 0 ∧ aliased = true then
    -- Emplace(pos, T(value))
    let t := copy_construct e v.data_.buffer_ value w.copies
    match t.1 with
    | none => ⟨v, { w with copies := t.2 }, none⟩
    | some x => v.Emplace e pos (.move x) { w with copies := t.2 }
  else
    v.Emplace e pos (.copy value) w

/-- The overload `Insert(pos, T&& value)`. -/
def Vector.InsertMove {α : Type} (e : Elem α) (v : Vector α) (pos : Nat) (value : α)
    (w : World α) : Outcome α Nat :=
  v.Emplace e pos (.move (some value)) w

/-- The loop `for (; i != n; ++i) data_[i] = rhs.data_[i]` of the copy assignment. -/
def assign_n {α : Type} (src : List (Slot α)) : Nat → List (Slot α) → Nat → List (Slot α)
  | 0, buf, _ => buf
  | n + 1, buf, i => assign_n src n (buf.set i (slot src i)) (i + 1)

/-- The copy assignment `operator=(const Vector& rhs)`; `rhs = none` stands for the
vector itself (`this == &rhs`). -/
def Vector.copyAssign {α : Type} (e : Elem α) (v : Vector α) (rhs : Option (Vector α))
    (w : World α) : Outcome α Unit :=
  match rhs with
  | none => ⟨v, w, some ()⟩
  | some rhs =>
    if rhs.size_ > v.data_.Capacity then
      let c := Vector.copyCtor e rhs w
      match c.1 with
      | none => ⟨v, c.2, none⟩
      | some rhs_copy =>
        let s := v.Swap rhs_copy
        ⟨s.1, s.2.destruct c.2, some ()⟩
    else if rhs.size_ ≤ v.size_ then
      let b := assign_n rhs.data_.buffer_ rhs.size_ v.data_.buffer_ 0
      let b2 := Vector.DestroyN (v.size_ - rhs.size_) b rhs.size_
      ⟨{ data_ := { v.data_ with buffer_ := b2 }, size_ := rhs.size_ }, w, some ()⟩
    else if rhs.size_ > v.size_ then
      let b := assign_n rhs.data_.buffer_ v.size_ v.data_.buffer_ 0
      let r := uninitialized_copy_n e rhs.data_.buffer_ (rhs.size_ - v.size_) v.size_ b v.size_
        w.copies
      if r.ok then
        ⟨{ data_ := { v.data_ with buffer_ := r.dst }, size_ := rhs.size_ },
          { w with copies := r.copies }, some ()⟩
      else
        ⟨{ v with data_ := { v.data_ with buffer_ := r.dst } }, { w with copies := r.copies }, none⟩
    else ⟨v, w, some ()⟩

/-! ## The class invariant and the contents of a vector -/

/-- The invariant of `Vector<T>`: `size_` does not exceed the capacity, the block has
as many slots as the capacity says, the slots below `size_` hold live objects and the
slots from `size_` up to the capacity are uninitialized. -/
def Vector.Inv {α : Type} (v : Vector α) : Prop :=
  v.Size ≤ v.Capacity ∧ v.data_.buffer_.length = v.Capacity ∧
  (∀ i, i < v.Size → (v.data_.index i).isSome = true) ∧
  (∀ i, i < v.Capacity → v.Size ≤ i → v.data_.index i = none)

instance {α : Type} [DecidableEq α] (v : Vector α) : Decidable v.Inv := by
  unfold Vector.Inv
  infer_instance

/-- The vector is well formed and its elements are exactly `xs`, in order. -/
def Vector.Holds {α : Type} (v : Vector α) (xs : List α) : Prop :=
  v.size_ = xs.length ∧ xs.length ≤ v.data_.capacity_ ∧
  v.data_.buffer_.length = v.data_.capacity_ ∧ ∀ j, slot v.data_.buffer_ j = xs[j]?

/-- The element type never throws from its copy constructor. -/
def Elem.NoThrow {α : Type} (e : Elem α) : Prop :=
  ∀ i, e.copyThrows i = false

/-- The object that `T(args...)` constructs when it does not throw. -/
def Arg.value {α : Type} (own : List (Slot α)) : Arg α → Slot α
  | .copy r => r.read own
  | .move x => x

/-- No copy-constructor invocation made between the world `w` and the copy count `c`
threw: the invocations numbered `w.copies + 1` to `c`. -/
def World.quietUntil {α : Type} (e : Elem α) (w : World α) (c : Nat) : Prop :=
  ∀ i, w.copies < i → i ≤ c → e.copyThrows i = false

/-- Every allocation request made between the worlds `w` and `w2` was served with the
block asked for: `operator new` did not throw, and no byte count wrapped around. -/
def World.served {α : Type} (w w2 : World α) : Prop :=
  w2.failed = w.failed ∧ w2.wrapped = w.wrapped

/-- Nothing threw during the call that started in the world `w` and left the outcome
`r`: no copy constructor and no `operator new`. -/
def Outcome.nothingThrew {α ρ : Type} (e : Elem α) (w : World α) (r : Outcome α ρ) : Prop :=
  w.quietUntil e r.world.copies ∧ r.world.failed = w.failed

/-- Nothing failed during the call that started in the world `w` and left the outcome
`r`: no copy constructor threw, and every allocation request was served with the block
asked for. -/
def Outcome.quiet {α ρ : Type} (e : Elem α) (w : World α) (r : Outcome α ρ) : Prop :=
  w.quietUntil e r.world.copies ∧ w.served r.world

/-- One call of `PushBack`: the overload `PushBack(const T&)` with the object its argument
refers to, or the overload `PushBack(T&&)` with the value of its argument. -/
inductive Push (α : Type) where
  | byCopy (value : ConstRef α)
  | byMove (value : α)
deriving DecidableEq, Repr

/-- The call of `PushBack` that `p` describes. -/
def Vector.push {α : Type} (e : Elem α) (v : Vector α) (p : Push α) (w : World α) :
    Outcome α Unit :=
  match p with
  | .byCopy value => v.PushBack e value w
  | .byMove value => v.PushBackMove e value w

/-- The value that the call `p` of `PushBack` passes when the vector holds the elements
`xs`; `none` when the argument refers to an element that the vector does not have. -/
def Push.passes {α : Type} (xs : List α) : Push α → Option α
  | .byCopy (.outside x) => some x
  | .byCopy (.element i) => xs[i]?
  | .byMove x => some x

/-- The values `v_1, ..., v_N` that the calls `ps` of `PushBack` pass one after the other
to a vector that holds `xs` before the first call and takes each value at its end;
`none` when one of the arguments refers to an element that the vector does not have. -/
def passedValues {α : Type} : List (Push α) → List α → Option (List α)
  | [], _ => some []
  | p :: ps, xs =>
    match p.passes xs with
    | none => none
    | some x => (passedValues ps (xs ++ [x])).map (List.cons x)

/-- The calls `PushBack(v_1)`, ..., `PushBack(v_N)` one after the other, each through
either overload; the run stops at the first call that is left by an exception. -/
def pushBackAll {α : Type} (e : Elem α) : List (Push α) → Vector α → World α → Outcome α Unit
  | [], v, w => ⟨v, w, some ()⟩
  | p :: ps, v, w =>
    let r := v.push e p w
    match r.ret with
    | none => r
    | some _ => pushBackAll e ps r.self r.world

/-- The outcome of inserting `y` before position `p` into a vector that held `xs`: the
vector is well formed and holds `xs[0..p) ++ [y] ++ xs[p..)`, its size is one more, and
the returned iterator is `begin() + p` and refers to `y`. -/
def Outcome.InsertedAt {α : Type} (r : Outcome α Nat) (xs : List α) (p : Nat) (y : α) : Prop :=
  r.self.Inv ∧ r.self.toList = (xs.take p ++ [y] ++ xs.drop p).map some ∧
  r.self.Size = xs.length + 1 ∧ r.ret = some (r.self.cbegin + p) ∧ r.self.index p = some y

/-- The vector `u` is well formed and holds exactly `xs`. -/
def Vector.Restored {α : Type} (u : Vector α) (xs : List α) : Prop :=
  u.Inv ∧ u.Size = xs.length ∧ u.toList = xs.map some

/-- The call left the vector exactly as it was and an exception propagated to the
caller. -/
def Outcome.RolledBack {α ρ : Type} (r : Outcome α ρ) (v : Vector α) : Prop :=
  r.ret = none ∧ r.self = v ∧ r.self.Size = v.Size ∧ r.self.Capacity = v.Capacity ∧
  r.self.toList = v.toList

/-- The number of blocks given back to the allocator between the world `w` and the
outcome `r`.  A member function that allocates a new block ends by destroying the local
`RawMemory`, which by then owns the block that was replaced; so for calls that are not
left by an exception this is the number of reallocations. -/
def Outcome.reallocations {α ρ : Type} (w : World α) (r : Outcome α ρ) : Nat :=
  r.world.released.length - w.released.length

/-- The null state of a `RawMemory`: the null pointer and capacity 0. -/
def RawMemory.IsNull {α : Type} (m : RawMemory α) : Prop :=
  m.buffer_ = [] ∧ m.capacity_ = 0

/-- No slot of the block holds a live object. -/
def noLiveObject {α : Type} (block : List (Slot α)) : Prop :=
  ∀ s ∈ block, s = none

/-- Every block given back to the allocator since the world `w` held no live object at
that moment. -/
def World.releasedClean {α : Type} (w w2 : World α) : Prop :=
  ∀ block ∈ w2.released.drop w.released.length, noLiveObject block

/-! ## Concrete element types and vectors -/

/-- The element type `int`: moves are copies, nothing throws, `sizeof(int)` is 4; every
request to `operator new` is served. -/
def intElem : Elem Nat :=
  { relocByMove := true, movedFrom := id, valueInit := 0, copyThrows := fun _ => false,
    sizeof := 4, newThrows := fun _ _ => false }

/-- The element type `int` on an implementation whose `operator new` throws
`std::bad_alloc` for every request of more than `PTRDIFF_MAX` bytes. -/
def intElemBounded : Elem Nat :=
  { intElem with newThrows := fun _ bytes => decide (2 ^ 63 - 1 < bytes) }

/-- An element type whose copy constructor throws on its `k`-th invocation and whose move
constructor is not declared `noexcept`, so that relocation copies; an object takes 4
bytes, and every request to `operator new` is served. -/
def throwingElem (k : Nat) : Elem Nat :=
  { relocByMove := false, movedFrom := id, valueInit := 0, copyThrows := fun i => decide (i = k),
    sizeof := 4, newThrows := fun _ _ => false }

/-- The world before anything has happened. -/
def World.start : World Nat :=
  { copies := 0, released := [] }

/-- The world after `Vector<T> v; v.Reserve(n);` for an `n` whose request is served,
followed by `copies` copy constructions: one call of `operator new` has been made and the
null block of the empty vector has been handed to `operator delete`. -/
def World.reserved (copies : Nat) : World Nat :=
  { copies := copies, released := [[]], requests := 1 }

/-- A vector with the elements `xs` in a block of `xs.length + spare` slots. -/
def vectorOf (xs : List Nat) (spare : Nat) : Vector Nat :=
  { data_ := { buffer_ := xs.map some ++ List.replicate spare none,
               capacity_ := xs.length + spare },
    size_ := xs.length }

/-- The scenario of the specification on `int`, first part: `PushBack(1)`,
`PushBack(2)`, `PushBack(3)` on a default-constructed vector. -/
def scenarioPushed : Outcome Nat Unit :=
  let r1 := ({} : Vector Nat).PushBackMove intElem 1 World.start
  let r2 := r1.self.PushBackMove intElem 2 r1.world
  r2.self.PushBackMove intElem 3 r2.world

/-- The scenario, second part: `Insert(begin() + 1, 9)`. -/
def scenarioInserted : Outcome Nat Nat :=
  scenarioPushed.self.InsertMove intElem (scenarioPushed.self.cbegin + 1) 9 scenarioPushed.world

/-- The scenario, third part: `Erase(begin())`. -/
def scenarioErased : Vector Nat × Nat :=
  scenarioInserted.self.Erase intElem scenarioInserted.self.cbegin

/-- The scenario, fourth part: `Resize(1)`. -/
def scenarioShrunk : Outcome Nat Unit :=
  scenarioErased.1.Resize intElem 1 scenarioInserted.world

/-- The scenario, last part: `Resize(4)`. -/
def scenarioGrown : Outcome Nat Unit :=
  scenarioShrunk.self.Resize intElem 4 scenarioShrunk.world

/-! ## Slots of a block -/

theorem slot_eq {α : Type} (buf : List (Slot α)) (j : Nat) : slot buf j = (buf[j]?).getD none := by
  simp [slot, List.getD_eq_getElem?_getD]

theorem slot_of_le {α : Type} (buf : List (Slot α)) (j : Nat) (h : buf.length ≤ j) :
    slot buf j = none := by
  simp [slot_eq, List.getElem?_eq_none h]

theorem slot_set {α : Type} (buf : List (Slot α)) (i j : Nat) (a : Slot α) :
    slot (buf.set i a) j = if i = j then (if i < buf.length then a else none) else slot buf j := by
  simp only [slot_eq, List.getElem?_set]
  split_ifs <;> simp

theorem slot_set_none {α : Type} (buf : List (Slot α)) (i j : Nat) :
    slot (buf.set i none) j = if i = j then none else slot buf j := by
  rw [slot_set]
  split_ifs <;> rfl

theorem slot_nil {α : Type} (j : Nat) : slot ([] : List (Slot α)) j = none := by
  simp [slot]

theorem slot_replicate {α : Type} (n j : Nat) :
    slot (List.replicate n (none : Slot α)) j = none := by
  simp only [slot_eq, List.getElem?_replicate]
  split_ifs <;> rfl

/-- Two blocks of the same length with the same slots are equal. -/
theorem block_ext {α : Type} (a b : List (Slot α)) (hl : a.length = b.length)
    (h : ∀ j, j < a.length → slot a j = slot b j) : a = b := by
  apply List.ext_getElem hl
  intro j h1 h2
  have := h j h1
  simp only [slot_eq, List.getElem?_eq_getElem h1, List.getElem?_eq_getElem h2,
    Option.getD_some] at this
  exact this

/-! ## The library algorithms, slot by slot -/

theorem length_destroy_n {α : Type} (n : Nat) (buf : List (Slot α)) (f : Nat) :
    (destroy_n n buf f).length = buf.length := by
  induction n generalizing buf f with
  | zero => rfl
  | succ n ih => simp [destroy_n, ih]

theorem slot_destroy_n {α : Type} (n : Nat) (buf : List (Slot α)) (f j : Nat) :
    slot (destroy_n n buf f) j = if f ≤ j ∧ j < f + n then none else slot buf j := by
  induction n generalizing buf f with
  | zero =>
    have : ¬ (f ≤ j ∧ j < f + 0) := by omega
    rw [if_neg this]
    rfl
  | succ n ih =>
    simp only [destroy_n, ih, slot_set_none]
    split_ifs <;> first | rfl | omega

theorem DestroyN_eq {α : Type} (n : Nat) (buf : List (Slot α)) (f : Nat) :
    Vector.DestroyN n buf f = destroy_n n buf f := by
  induction n generalizing buf f with
  | zero => rfl
  | succ n ih => simp [Vector.DestroyN, destroy_n, Vector.Destroy, ih]

theorem length_copy_n {α : Type} (e : Elem α) (src : List (Slot α)) (n f : Nat)
    (dst : List (Slot α)) (d c : Nat) :
    (uninitialized_copy_n e src n f dst d c).dst.length = dst.length := by
  induction n generalizing f dst d c with
  | zero => rfl
  | succ n ih =>
    simp only [uninitialized_copy_n]
    split_ifs <;> simp [ih]

theorem copies_copy_n {α : Type} (e : Elem α) (src : List (Slot α)) (n f : Nat)
    (dst : List (Slot α)) (d c : Nat) :
    c ≤ (uninitialized_copy_n e src n f dst d c).copies ∧
      (uninitialized_copy_n e src n f dst d c).copies ≤ c + n := by
  induction n generalizing f dst d c with
  | zero => simp [uninitialized_copy_n]
  | succ n ih =>
    simp only [uninitialized_copy_n]
    have := ih (f + 1) (dst.set d (slot src f)) (d + 1) (c + 1)
    split_ifs <;> first | omega | (simp only []; omega)

/-- A call of `std::uninitialized_copy_n` that returns has made `n` copies, none of
which threw. -/
theorem copy_n_ok {α : Type} (e : Elem α) (src : List (Slot α)) (n f : Nat)
    (dst : List (Slot α)) (d c : Nat)
    (h : (uninitialized_copy_n e src n f dst d c).ok = true) :
    (uninitialized_copy_n e src n f dst d c).copies = c + n ∧
      ∀ i, c < i → i ≤ c + n → e.copyThrows i = false := by
  induction n generalizing f dst d c with
  | zero =>
    refine ⟨rfl, ?_⟩
    intro i h1 h2
    omega
  | succ n ih =>
    simp only [uninitialized_copy_n] at h ⊢
    by_cases ht : e.copyThrows (c + 1) = true
    · simp [ht] at h
    · simp only [ht, Bool.false_eq_true, if_false] at h ⊢
      by_cases hr : (uninitialized_copy_n e src n (f + 1) (dst.set d (slot src f)) (d + 1)
          (c + 1)).ok = true
      · simp only [hr, if_true] at h ⊢
        obtain ⟨h1, h2⟩ := ih _ _ _ _ hr
        refine ⟨by omega, ?_⟩
        intro i hi1 hi2
        by_cases hc : i = c + 1
        · subst hc
          simpa using ht
        · exact h2 i (by omega) (by omega)
      · simp [hr] at h

/-- A call of `std::uninitialized_copy_n` that is left by an exception stopped at a
copy that threw. -/
theorem copy_n_fail {α : Type} (e : Elem α) (src : List (Slot α)) (n f : Nat)
    (dst : List (Slot α)) (d c : Nat)
    (h : (uninitialized_copy_n e src n f dst d c).ok = false) :
    c < (uninitialized_copy_n e src n f dst d c).copies ∧
      (uninitialized_copy_n e src n f dst d c).copies ≤ c + n ∧
      e.copyThrows (uninitialized_copy_n e src n f dst d c).copies = true := by
  induction n generalizing f dst d c with
  | zero => simp [uninitialized_copy_n] at h
  | succ n ih =>
    simp only [uninitialized_copy_n] at h ⊢
    by_cases ht : e.copyThrows (c + 1) = true
    · simp [ht]
    · simp only [ht, Bool.false_eq_true, if_false] at h ⊢
      by_cases hr : (uninitialized_copy_n e src n (f + 1) (dst.set d (slot src f)) (d + 1)
          (c + 1)).ok = true
      · simp [hr] at h
      · simp only [hr, Bool.false_eq_true, if_false]
        simp only [Bool.not_eq_true] at hr
        obtain ⟨h1, h2, h3⟩ := ih _ _ _ _ hr
        exact ⟨by omega, by omega, h3⟩

theorem copy_n_ok_of_noThrow {α : Type} (e : Elem α) (hn : e.NoThrow) (src : List (Slot α))
    (n f : Nat) (dst : List (Slot α)) (d c : Nat) :
    (uninitialized_copy_n e src n f dst d c).ok = true := by
  by_contra h
  simp only [Bool.not_eq_true] at h
  have := (copy_n_fail e src n f dst d c h).2.2
  rw [hn] at this
  exact Bool.false_ne_true this

/-- The slots of the destination after a call of `std::uninitialized_copy_n` that
returned. -/
theorem slot_copy_n {α : Type} (e : Elem α) (src : List (Slot α)) (n f : Nat)
    (dst : List (Slot α)) (d c : Nat)
    (h : (uninitialized_copy_n e src n f dst d c).ok = true) (j : Nat) :
    slot (uninitialized_copy_n e src n f dst d c).dst j =
      if d ≤ j ∧ j < d + n ∧ j < dst.length then slot src (f + (j - d)) else slot dst j := by
  induction n generalizing f dst d c with
  | zero =>
    have : ¬ (d ≤ j ∧ j < d + 0 ∧ j < dst.length) := by omega
    rw [if_neg this]
    rfl
  | succ n ih =>
    simp only [uninitialized_copy_n] at h ⊢
    by_cases ht : e.copyThrows (c + 1) = true
    · simp [ht] at h
    · simp only [ht, Bool.false_eq_true, if_false] at h ⊢
      by_cases hr : (uninitialized_copy_n e src n (f + 1) (dst.set d (slot src f)) (d + 1)
          (c + 1)).ok = true
      · simp only [hr, if_true]
        rw [ih _ _ _ _ hr, slot_set, List.length_set]
        by_cases hj : d = j
        · subst hj
          by_cases hl : d < dst.length
          · have h1 : ¬ (d + 1 ≤ d ∧ d < d + 1 + n ∧ d < dst.length) := by omega
            have h2 : d ≤ d ∧ d < d + (n + 1) ∧ d < dst.length := by omega
            simp [h1, h2, hl]
          · have h1 : ¬ (d + 1 ≤ d ∧ d < d + 1 + n ∧ d < dst.length) := by omega
            have h2 : ¬ (d ≤ d ∧ d < d + (n + 1) ∧ d < dst.length) := by omega
            simp [h1, h2, hl, slot_of_le dst d (by omega)]
        · by_cases hc : d + 1 ≤ j ∧ j < d + 1 + n ∧ j < dst.length
          · have h2 : d ≤ j ∧ j < d + (n + 1) ∧ j < dst.length := by omega
            rw [if_pos hc, if_pos h2]
            congr 1
            omega
          · have h2 : ¬ (d ≤ j ∧ j < d + (n + 1) ∧ j < dst.length) := by omega
            rw [if_neg hc, if_neg h2, if_neg hj]
      · simp [hr] at h

theorem length_move_n_src {α : Type} (e : Elem α) (n : Nat) (src : List (Slot α)) (f : Nat)
    (dst : List (Slot α)) (d : Nat) :
    (uninitialized_move_n e n src f dst d).1.length = src.length := by
  induction n generalizing src f dst d with
  | zero => rfl
  | succ n ih => simp [uninitialized_move_n, ih]

theorem length_move_n_dst {α : Type} (e : Elem α) (n : Nat) (src : List (Slot α)) (f : Nat)
    (dst : List (Slot α)) (d : Nat) :
    (uninitialized_move_n e n src f dst d).2.length = dst.length := by
  induction n generalizing src f dst d with
  | zero => rfl
  | succ n ih => simp [uninitialized_move_n, ih]

/-- The source block after `std::uninitialized_move_n`: the moved objects are in their
moved-from state. -/
theorem slot_move_n_src {α : Type} (e : Elem α) (n : Nat) (src : List (Slot α)) (f : Nat)
    (dst : List (Slot α)) (d j : Nat) :
    slot (uninitialized_move_n e n src f dst d).1 j =
      if f ≤ j ∧ j < f + n then (slot src j).map e.movedFrom else slot src j := by
  induction n generalizing src f dst d with
  | zero =>
    have : ¬ (f ≤ j ∧ j < f + 0) := by omega
    rw [if_neg this]
    rfl
  | succ n ih =>
    simp only [uninitialized_move_n]
    rw [ih, slot_set]
    by_cases hj : f = j
    · subst hj
      have h1 : ¬ (f + 1 ≤ f ∧ f < f + 1 + n) := by omega
      have h2 : f ≤ f ∧ f < f + (n + 1) := by omega
      rw [if_neg h1, if_pos h2, if_pos rfl]
      by_cases hl : f < src.length
      · rw [if_pos hl]
      · rw [if_neg hl, slot_of_le src f (by omega)]
        rfl
    · by_cases hc : f + 1 ≤ j ∧ j < f + 1 + n
      · have h2 : f ≤ j ∧ j < f + (n + 1) := by omega
        rw [if_pos hc, if_pos h2, if_neg hj]
      · have h2 : ¬ (f ≤ j ∧ j < f + (n + 1)) := by omega
        rw [if_neg hc, if_neg h2, if_neg hj]

/-- The destination block after `std::uninitialized_move_n`. -/
theorem slot_move_n_dst {α : Type} (e : Elem α) (n : Nat) (src : List (Slot α)) (f : Nat)
    (dst : List (Slot α)) (d j : Nat) :
    slot (uninitialized_move_n e n src f dst d).2 j =
      if d ≤ j ∧ j < d + n ∧ j < dst.length then slot src (f + (j - d)) else slot dst j := by
  induction n generalizing src f dst d with
  | zero =>
    have : ¬ (d ≤ j ∧ j < d + 0 ∧ j < dst.length) := by omega
    rw [if_neg this]
    rfl
  | succ n ih =>
    simp only [uninitialized_move_n]
    rw [ih]
    simp only [slot_set, List.length_set]
    by_cases hj : d = j
    · subst hj
      have h1 : ¬ (d + 1 ≤ d ∧ d < d + 1 + n ∧ d < dst.length) := by omega
      rw [if_neg h1, if_pos rfl]
      by_cases hl : d < dst.length
      · have h2 : d ≤ d ∧ d < d + (n + 1) ∧ d < dst.length := by omega
        rw [if_pos hl, if_pos h2]
        simp
      · have h2 : ¬ (d ≤ d ∧ d < d + (n + 1) ∧ d < dst.length) := by omega
        rw [if_neg hl, if_neg h2, slot_of_le dst d (by omega)]
    · by_cases hc : d + 1 ≤ j ∧ j < d + 1 + n ∧ j < dst.length
      · have h2 : d ≤ j ∧ j < d + (n + 1) ∧ j < dst.length := by omega
        have h3 : ¬ (f = f + 1 + (j - (d + 1))) := by omega
        rw [if_pos hc, if_pos h2, if_neg h3]
        congr 1
        omega
      · have h2 : ¬ (d ≤ j ∧ j < d + (n + 1) ∧ j < dst.length) := by omega
        rw [if_neg hc, if_neg h2, if_neg hj]

theorem length_move_fwd {α : Type} (e : Elem α) (n : Nat) (buf : List (Slot α)) (f d : Nat) :
    (move_n e n buf f d).length = buf.length := by
  induction n generalizing buf f d with
  | zero => rfl
  | succ n ih => simp [move_n, ih]

theorem length_move_backward_n {α : Type} (e : Elem α) (n : Nat) (buf : List (Slot α))
    (l d : Nat) : (move_backward_n e n buf l d).length = buf.length := by
  induction n generalizing buf l d with
  | zero => rfl
  | succ n ih => simp [move_backward_n, ih]

/-- Shifting `n` objects one slot to the left onto slot `d` and destroying the slot that
was vacated last: every slot from `d` to `d + n - 1` gets the object of its right
neighbour. -/
theorem slot_move_left {α : Type} (e : Elem α) (n : Nat) (buf : List (Slot α)) (d j : Nat) :
    slot ((move_n e n buf (d + 1) d).set (d + n) none) j =
      if d ≤ j ∧ j < d + n then slot buf (j + 1) else if j = d + n then none else slot buf j := by
  induction n generalizing buf d with
  | zero =>
    have h0 : ¬ (d ≤ j ∧ j < d + 0) := by omega
    rw [if_neg h0]
    simp only [move_n, slot_set_none, Nat.add_zero]
    by_cases hj : d = j
    · rw [if_pos hj, if_pos hj.symm]
    · rw [if_neg hj, if_neg (fun h => hj h.symm)]
  | succ n ih =>
    simp only [move_n]
    have hd : d + (n + 1) = d + 1 + n := by omega
    rw [hd, ih]
    simp only [slot_set, List.length_set]
    by_cases hc : d + 1 ≤ j ∧ j < d + 1 + n
    · have h2 : d ≤ j ∧ j < d + 1 + n := by omega
      have h3 : ¬ (d + 1 = j + 1) := by omega
      have h4 : ¬ (d = j + 1) := by omega
      rw [if_pos hc, if_pos h2, if_neg h3, if_neg h4]
    · rw [if_neg hc]
      by_cases hj : j = d + 1 + n
      · have h2 : ¬ (d ≤ j ∧ j < d + 1 + n) := by omega
        rw [if_pos hj, if_neg h2, if_pos hj]
      · rw [if_neg hj]
        have h3 : ¬ (d + 1 = j) := by omega
        rw [if_neg h3]
        by_cases hdj : d = j
        · subst hdj
          have h2 : d ≤ d ∧ d < d + 1 + n := by omega
          rw [if_pos rfl, if_pos h2]
          by_cases hl : d < buf.length
          · rw [if_pos hl]
          · rw [if_neg hl, slot_of_le buf (d + 1) (by omega)]
        · have h2 : ¬ (d ≤ j ∧ j < d + 1 + n) := by omega
          rw [if_neg hdj, if_neg h2, if_neg hj]

/-- Shifting `n` objects one slot to the right, the last of them into slot `f + n`, and
assigning `x` to slot `f`: every slot from `f + 1` to `f + n` gets the object of its
left neighbour. -/
theorem slot_move_right {α : Type} (e : Elem α) (n : Nat) (buf : List (Slot α)) (f : Nat)
    (x : Slot α) (hl : f + n < buf.length) (j : Nat) :
    slot ((move_backward_n e n buf (f + n) (f + n + 1)).set f x) j =
      if f < j ∧ j ≤ f + n then slot buf (j - 1) else if j = f then x else slot buf j := by
  induction n generalizing buf with
  | zero =>
    have h0 : ¬ (f < j ∧ j ≤ f + 0) := by omega
    rw [if_neg h0]
    simp only [move_backward_n, slot_set]
    by_cases hj : f = j
    · have hf : f < buf.length := by omega
      rw [if_pos hj, if_pos hj.symm, if_pos hf]
    · rw [if_neg hj, if_neg (fun h => hj h.symm)]
  | succ n ih =>
    simp only [move_backward_n]
    have e1 : f + (n + 1) - 1 = f + n := by omega
    have e2 : f + (n + 1) + 1 - 1 = f + n + 1 := by omega
    rw [e1, e2, ih _ (by simp only [List.length_set]; omega)]
    simp only [slot_set, List.length_set]
    by_cases hc : f < j ∧ j ≤ f + n
    · have h2 : f < j ∧ j ≤ f + (n + 1) := by omega
      have h3 : ¬ (f + n = j - 1) := by omega
      have h4 : ¬ (f + n + 1 = j - 1) := by omega
      rw [if_pos hc, if_pos h2, if_neg h3, if_neg h4]
    · rw [if_neg hc]
      by_cases hj : j = f
      · have h2 : ¬ (f < j ∧ j ≤ f + (n + 1)) := by omega
        rw [if_pos hj, if_neg h2, if_pos hj]
      · rw [if_neg hj]
        have h3 : ¬ (f + n = j) := by omega
        rw [if_neg h3]
        by_cases hjn : f + n + 1 = j
        · have h2 : f < j ∧ j ≤ f + (n + 1) := by omega
          have h5 : f + n + 1 < buf.length := by omega
          rw [if_pos hjn, if_pos h2, if_pos h5]
          congr 1
          omega
        · have h2 : ¬ (f < j ∧ j ≤ f + (n + 1)) := by omega
          rw [if_neg hjn, if_neg h2, if_neg hj]

/-! ## Lists of elements -/

theorem getElem?_snoc {α : Type} (xs : List α) (y : α) (j : Nat) :
    (xs ++ [y])[j]? = if j < xs.length then xs[j]? else if j = xs.length then some y else none := by
  rw [List.getElem?_append]
  split_ifs with h1 h2
  · rfl
  · subst h2
    simp
  · have : j - xs.length ≠ 0 := by omega
    obtain ⟨k, hk⟩ := Nat.exists_eq_succ_of_ne_zero this
    rw [hk]
    rfl

theorem getElem?_insert {α : Type} (xs : List α) (p : Nat) (hp : p ≤ xs.length) (y : α) (j : Nat) :
    (xs.take p ++ [y] ++ xs.drop p)[j]? =
      if j < p then xs[j]? else if j = p then some y else xs[j - 1]? := by
  have hlen : (xs.take p ++ [y]).length = p + 1 := by
    simp [List.length_take, Nat.min_eq_left hp]
  rw [List.getElem?_append, hlen]
  by_cases h1 : j < p
  · have h2 : j < p + 1 := by omega
    rw [if_pos h2, if_pos h1, getElem?_snoc, List.length_take, Nat.min_eq_left hp, if_pos h1,
      List.getElem?_take, if_pos h1]
  · rw [if_neg h1]
    by_cases h2 : j = p
    · subst h2
      rw [if_pos (by omega), if_pos rfl, getElem?_snoc, List.length_take, Nat.min_eq_left hp,
        if_neg h1, if_pos rfl]
    · rw [if_neg (by omega), if_neg h2, List.getElem?_drop]
      congr 1
      omega

theorem Vector.Holds.toList_eq {α : Type} {v : Vector α} {xs : List α} (h : v.Holds xs) :
    v.toList = xs.map some := by
  obtain ⟨h1, _, _, h4⟩ := h
  apply List.ext_getElem?
  intro j
  simp only [Vector.toList, Vector.cend, Vector.cbegin, Vector.index, RawMemory.index,
    Nat.sub_zero, Nat.zero_add, List.getElem?_map, List.getElem?_range, h1, h4]
  by_cases hj : j < xs.length
  · simp [List.getElem?_range hj, List.getElem?_eq_getElem hj]
  · rw [List.getElem?_eq_none (by simpa using hj), List.getElem?_eq_none (by simpa using hj)]
    rfl

theorem Vector.Holds.inv {α : Type} {v : Vector α} {xs : List α} (h : v.Holds xs) : v.Inv := by
  obtain ⟨h1, h2, h3, h4⟩ := h
  refine ⟨?_, ?_, ?_, ?_⟩
  · simpa [Vector.Size, Vector.Capacity, RawMemory.Capacity, h1] using h2
  · simpa [Vector.Capacity, RawMemory.Capacity] using h3
  · intro i hi
    simp only [Vector.Size, h1] at hi
    simp [RawMemory.index, h4, List.getElem?_eq_getElem hi]
  · intro i _ hi
    simp only [Vector.Size, h1] at hi
    simp [RawMemory.index, h4, List.getElem?_eq_none hi]

theorem all_some {α : Type} (l : List (Slot α)) (h : ∀ s ∈ l, s.isSome = true) :
    ∃ xs : List α, l = xs.map some := by
  induction l with
  | nil => exact ⟨[], rfl⟩
  | cons a l ih =>
    obtain ⟨xs, hxs⟩ := ih (fun s hs => h s (List.mem_cons_of_mem _ hs))
    have ha := h a (List.mem_cons_self _ _)
    obtain ⟨x, hx⟩ := Option.isSome_iff_exists.mp ha
    exact ⟨x :: xs, by simp [hx, hxs]⟩

theorem Vector.Inv.holds {α : Type} {v : Vector α} {xs : List α} (h : v.Inv)
    (hx : v.toList = xs.map some) : v.Holds xs := by
  obtain ⟨h1, h2, _, h4⟩ := h
  simp only [Vector.Size, Vector.Capacity, RawMemory.Capacity, RawMemory.index] at h1 h2 h4
  have hlen : v.size_ = xs.length := by
    have := congrArg List.length hx
    simpa [Vector.toList, Vector.cend, Vector.cbegin] using this
  refine ⟨hlen, by omega, h2, ?_⟩
  intro j
  by_cases hj : j < xs.length
  · have := congrArg (fun l => l[j]?) hx
    simp only [Vector.toList, Vector.cend, Vector.cbegin, Vector.index, RawMemory.index,
      Nat.sub_zero, Nat.zero_add, List.getElem?_map] at this
    rw [List.getElem?_range (by omega), List.getElem?_eq_getElem hj] at this
    simpa [List.getElem?_eq_getElem hj] using this
  · rw [List.getElem?_eq_none (by omega)]
    by_cases hc : j < v.data_.capacity_
    · exact h4 j hc (by omega)
    · exact slot_of_le _ _ (by omega)

theorem Vector.Inv.exists_holds {α : Type} {v : Vector α} (h : v.Inv) : ∃ xs, v.Holds xs := by
  have h3 := h.2.2.1
  obtain ⟨xs, hxs⟩ := all_some v.toList (by
    intro s hs
    simp only [Vector.toList, Vector.cend, Vector.cbegin, Vector.index, Nat.sub_zero,
      Nat.zero_add, List.mem_map, List.mem_range] at hs
    obtain ⟨i, hi, rfl⟩ := hs
    exact h3 i hi)
  exact ⟨xs, h.holds hxs⟩

/-! ## Allocation -/

theorem Allocate_copies {α : Type} (e : Elem α) (n : Nat) (w : World α) :
    (RawMemory.Allocate e n w).2.copies = w.copies := by
  simp only [RawMemory.Allocate]
  split_ifs <;> rfl

theorem Allocate_released {α : Type} (e : Elem α) (n : Nat) (w : World α) :
    (RawMemory.Allocate e n w).2.released = w.released := by
  simp only [RawMemory.Allocate]
  split_ifs <;> rfl

/-- A call of `Allocate` that is left by `std::bad_alloc` is counted as failed. -/
theorem Allocate_none {α : Type} (e : Elem α) (n : Nat) (w : World α)
    (h : (RawMemory.Allocate e n w).1 = none) :
    (RawMemory.Allocate e n w).2.failed = w.failed + 1 ∧
      (RawMemory.Allocate e n w).2.wrapped = w.wrapped := by
  simp only [RawMemory.Allocate] at h ⊢
  split_ifs at h ⊢
  exact ⟨rfl, rfl⟩

/-- A call of `Allocate` that returns gives a block without objects; the block has `n`
slots unless the call is counted as wrapped. -/
theorem Allocate_some {α : Type} (e : Elem α) (n : Nat) (w : World α) (b : List (Slot α))
    (h : (RawMemory.Allocate e n w).1 = some b) :
    (RawMemory.Allocate e n w).2.failed = w.failed ∧
      w.wrapped ≤ (RawMemory.Allocate e n w).2.wrapped ∧
      (∀ j, slot b j = none) ∧
      ((RawMemory.Allocate e n w).2.wrapped = w.wrapped → b.length = n) := by
  simp only [RawMemory.Allocate] at h ⊢
  split_ifs at h ⊢ with h1 h2 h3
  · simp only [Option.some.injEq] at h
    subst h
    exact ⟨rfl, Nat.le_refl _, slot_replicate n, fun _ => List.length_replicate _ _⟩
  · simp only [Option.some.injEq] at h
    subst h
    refine ⟨rfl, Nat.le_succ _, slot_replicate _, fun hw => ?_⟩
    simp only at hw
    omega
  · simp only [Option.some.injEq] at h
    subst h
    simp only [ne_eq, not_not] at h1
    exact ⟨rfl, Nat.le_refl _, slot_nil, fun _ => by simp [h1]⟩

theorem withCapacity_copies {α : Type} (e : Elem α) (n : Nat) (w : World α) :
    (RawMemory.withCapacity e n w).2.copies = w.copies :=
  Allocate_copies e n w

theorem withCapacity_released {α : Type} (e : Elem α) (n : Nat) (w : World α) :
    (RawMemory.withCapacity e n w).2.released = w.released :=
  Allocate_released e n w

/-- The constructor `RawMemory(capacity)` left by `std::bad_alloc`. -/
theorem withCapacity_none {α : Type} (e : Elem α) (n : Nat) (w : World α)
    (h : (RawMemory.withCapacity e n w).1 = none) :
    (RawMemory.withCapacity e n w).2.failed = w.failed + 1 ∧
      (RawMemory.withCapacity e n w).2.wrapped = w.wrapped := by
  simp only [RawMemory.withCapacity, Option.map_eq_none'] at h
  exact Allocate_none e n w h

/-- The object that the constructor `RawMemory(capacity)` makes records the capacity asked
for, and its block holds no object; the block has `capacity` slots when the request was
served. -/
theorem withCapacity_some {α : Type} (e : Elem α) (n : Nat) (w : World α) (m : RawMemory α)
    (h : (RawMemory.withCapacity e n w).1 = some m) :
    m.capacity_ = n ∧ (RawMemory.withCapacity e n w).2.failed = w.failed ∧
      w.wrapped ≤ (RawMemory.withCapacity e n w).2.wrapped ∧
      (∀ j, slot m.buffer_ j = none) ∧
      ((RawMemory.withCapacity e n w).2.wrapped = w.wrapped → m.buffer_.length = n) := by
  simp only [RawMemory.withCapacity, Option.map_eq_some'] at h
  obtain ⟨b, hb, rfl⟩ := h
  obtain ⟨h1, h2, h3, h4⟩ := Allocate_some e n w b hb
  exact ⟨rfl, h1, h2, h3, h4⟩

/-- The call `Reserve` leaves the vector as it was when an exception propagates. -/
theorem Reserve_thrown {α : Type} (e : Elem α) (v : Vector α) (n : Nat) (w : World α)
    (h : (v.Reserve e n w).ret = none) : (v.Reserve e n w).self = v := by
  cases ha : (RawMemory.withCapacity e n w).1 with
  | none =>
    simp only [Vector.Reserve, ha]
    split_ifs <;> rfl
  | some m =>
    simp only [Vector.Reserve, ha] at h ⊢
    split_ifs at h ⊢
    rfl

/-- The call `Reserve` returns exactly when nothing threw during it: none of its copies
and not the allocation. -/
theorem Reserve_ret_iff {α : Type} (e : Elem α) (v : Vector α) (n : Nat) (w : World α) :
    (v.Reserve e n w).ret = some () ↔ (v.Reserve e n w).nothingThrew e w := by
  have hc := withCapacity_copies e n w
  cases ha : (RawMemory.withCapacity e n w).1 with
  | none =>
    have hf := (withCapacity_none e n w ha).1
    simp only [Vector.Reserve, Outcome.nothingThrew, World.quietUntil, ha]
    split_ifs with h1
    · simp only [true_iff, and_true]
      intro i hi1 hi2
      omega
    · simp only [reduceCtorEq, false_iff, not_and]
      intro _
      omega
  | some m =>
    have hf := (withCapacity_some e n w m ha).2.1
    simp only [Vector.Reserve, Outcome.nothingThrew, World.quietUntil, ha, hc]
    split_ifs with h1 h2 h3
    · simp only [true_iff, and_true]
      intro i hi1 hi2
      omega
    · simp only [RawMemory.Deallocate, true_iff, hc, hf, and_true]
      intro i hi1 hi2
      omega
    · simp only [RawMemory.Deallocate, true_iff, hf, and_true]
      have := copy_n_ok e _ _ _ _ _ _ h3
      intro i hi1 hi2
      exact this.2 i hi1 (by omega)
    · simp only [RawMemory.Deallocate, false_iff, reduceCtorEq, not_and]
      simp only [Bool.not_eq_true] at h3
      have := copy_n_fail e _ _ _ _ _ _ h3
      intro hq
      have := hq _ this.1 (le_refl _)
      simp_all

theorem quiet_nothingThrew {α ρ : Type} {e : Elem α} {w : World α} {r : Outcome α ρ}
    (h : r.quiet e w) : r.nothingThrew e w :=
  ⟨h.1, h.2.1⟩

theorem construct_none {α : Type} (e : Elem α) (own : List (Slot α)) (a : Arg α) (c : Nat)
    (h : (construct e own a c).1 = none) :
    (construct e own a c).2 = c + 1 ∧ e.copyThrows (c + 1) = true := by
  cases a with
  | copy r =>
    simp only [construct, copy_construct] at h ⊢
    split_ifs at h ⊢ with ht
    exact ⟨rfl, ht⟩
  | move x => simp [construct] at h

theorem construct_some {α : Type} (e : Elem α) (own : List (Slot α)) (a : Arg α) (c : Nat)
    (x : Slot α) (h : (construct e own a c).1 = some x) :
    x = a.value own ∧ c ≤ (construct e own a c).2 ∧ (construct e own a c).2 ≤ c + 1 ∧
      ∀ i, c < i → i ≤ (construct e own a c).2 → e.copyThrows i = false := by
  cases a with
  | copy r =>
    simp only [construct, copy_construct] at h ⊢
    split_ifs at h ⊢ with ht
    simp only [Option.some.injEq] at h
    refine ⟨h.symm, by omega, by omega, ?_⟩
    intro i h1 h2
    have : i = c + 1 := by omega
    subst this
    simpa using ht
  | move x =>
    simp only [construct, Option.some.injEq] at h ⊢
    refine ⟨h.symm, by omega, by omega, ?_⟩
    intro i h1 h2
    omega

/-! ## `EmplaceBack` -/
/-! ## `EmplaceBack` -/

/-- The allocation counters after `EmplaceBack` are those of the one allocation that the
branch taken makes. -/
theorem EmplaceBack_world {α : Type} (e : Elem α) (v : Vector α) (a : Arg α) (w : World α) :
    (v.EmplaceBack e a w).world.failed =
        (if v.Capacity = 0 then (RawMemory.withCapacity e 1 w).2.failed
          else if v.Capacity = v.size_ then
            (RawMemory.withCapacity e (v.Capacity * 2) w).2.failed
          else w.failed) ∧
      (v.EmplaceBack e a w).world.wrapped =
        (if v.Capacity = 0 then (RawMemory.withCapacity e 1 w).2.wrapped
          else if v.Capacity = v.size_ then
            (RawMemory.withCapacity e (v.Capacity * 2) w).2.wrapped
          else w.wrapped) := by
  have hc1 := withCapacity_copies e 1 w
  have hc2 := withCapacity_copies e (v.Capacity * 2) w
  cases hk : (construct e v.data_.buffer_ a w.copies).1 <;>
  cases ha1 : (RawMemory.withCapacity e 1 w).1 <;>
  cases ha2 : (RawMemory.withCapacity e (v.Capacity * 2) w).1 <;>
  simp only [Vector.EmplaceBack, hc1, hc2, hk, ha1, ha2] <;>
  split_ifs <;> exact ⟨rfl, rfl⟩

/-- The call `EmplaceBack` leaves the vector as it was when an exception propagates. -/
theorem EmplaceBack_thrown {α : Type} (e : Elem α) (v : Vector α) (a : Arg α) (w : World α)
    (h : (v.EmplaceBack e a w).ret = none) : (v.EmplaceBack e a w).self = v := by
  have hc1 := withCapacity_copies e 1 w
  have hc2 := withCapacity_copies e (v.Capacity * 2) w
  cases hk : (construct e v.data_.buffer_ a w.copies).1 <;>
  cases ha1 : (RawMemory.withCapacity e 1 w).1 <;>
  cases ha2 : (RawMemory.withCapacity e (v.Capacity * 2) w).1 <;>
  simp only [Vector.EmplaceBack, hc1, hc2, hk, ha1, ha2] at h ⊢ <;>
  split_ifs at h ⊢ <;> rfl

/-- The call `EmplaceBack` returns exactly when nothing threw during it: none of its
copies and not the allocation. -/
theorem EmplaceBack_ret_iff {α : Type} (e : Elem α) (v : Vector α) (a : Arg α) (w : World α) :
    (v.EmplaceBack e a w).ret ≠ none ↔ (v.EmplaceBack e a w).nothingThrew e w := by
  have hc1 := withCapacity_copies e 1 w
  have hc2 := withCapacity_copies e (v.Capacity * 2) w
  have hvac : ∀ i, w.copies < i → i ≤ w.copies → e.copyThrows i = false := by
    intro i hi1 hi2
    omega
  have hkn : (construct e v.data_.buffer_ a w.copies).1 = none →
      ¬ ∀ i, w.copies < i → i ≤ (construct e v.data_.buffer_ a w.copies).2 →
        e.copyThrows i = false := by
    intro hk hq
    have hc := construct_none e _ _ _ hk
    have := hq (w.copies + 1) (by omega) (by omega)
    simp_all
  by_cases c1 : v.Capacity = 0
  · cases ha : (RawMemory.withCapacity e 1 w).1 with
    | none =>
      have hf := (withCapacity_none e 1 w ha).1
      simp only [Vector.EmplaceBack, Outcome.nothingThrew, World.quietUntil, if_pos c1, ha, hc1,
        hf]
      simp
    | some m =>
      have hf := (withCapacity_some e 1 w m ha).2.1
      cases hk : (construct e v.data_.buffer_ a w.copies).1 with
      | none =>
        simp only [Vector.EmplaceBack, Outcome.nothingThrew, World.quietUntil, if_pos c1, ha,
          hc1, hk, RawMemory.Deallocate]
        simpa using fun h => absurd h (hkn hk)
      | some x =>
        have hc := construct_some e _ _ _ x hk
        simp only [Vector.EmplaceBack, Outcome.nothingThrew, World.quietUntil, if_pos c1, ha,
          hc1, hk, RawMemory.Deallocate, hf]
        simpa using hc.2.2.2
  · by_cases c2 : v.Capacity = v.size_
    · cases ha : (RawMemory.withCapacity e (v.Capacity * 2) w).1 with
      | none =>
        have hf := (withCapacity_none e _ w ha).1
        simp only [Vector.EmplaceBack, Outcome.nothingThrew, World.quietUntil, if_neg c1,
          if_pos c2, ha, hc2, hf]
        simp
      | some m =>
        have hf := (withCapacity_some e _ w m ha).2.1
        cases hk : (construct e v.data_.buffer_ a w.copies).1 with
        | none =>
          simp only [Vector.EmplaceBack, Outcome.nothingThrew, World.quietUntil, if_neg c1,
            if_pos c2, ha, hc2, hk, RawMemory.Deallocate]
          simpa using fun h => absurd h (hkn hk)
        | some x =>
          have hc := construct_some e _ _ _ x hk
          simp only [Vector.EmplaceBack, Outcome.nothingThrew, World.quietUntil, if_neg c1,
            if_pos c2, ha, hc2, hk, RawMemory.Deallocate]
          split_ifs with c3 c4
          · simpa [hf] using hc.2.2.2
          · simp only [ne_eq, reduceCtorEq, not_false_eq_true, true_iff]
            have := copy_n_ok e _ _ _ _ _ _ c4
            refine ⟨?_, hf⟩
            intro i h1 h2
            by_cases hi : i ≤ (construct e v.data_.buffer_ a w.copies).2
            · exact hc.2.2.2 i h1 hi
            · exact this.2 i (by omega) (by omega)
          · simp only [ne_eq, not_true_eq_false, false_iff, not_and]
            simp only [Bool.not_eq_true] at c4
            have := copy_n_fail e _ _ _ _ _ _ c4
            intro hq
            have := hq _ (by omega) (le_refl _)
            simp_all
    · cases hk : (construct e v.data_.buffer_ a w.copies).1 with
      | none =>
        simp only [Vector.EmplaceBack, Outcome.nothingThrew, World.quietUntil, if_neg c1,
          if_neg c2, hk]
        simpa using hkn hk
      | some x =>
        have hc := construct_some e _ _ _ x hk
        simp only [Vector.EmplaceBack, Outcome.nothingThrew, World.quietUntil, if_neg c1,
          if_neg c2, hk]
        simpa using hc.2.2.2

theorem EmplaceBack_holds {α : Type} (e : Elem α) (v : Vector α) (xs : List α) (a : Arg α)
    (y : α) (w : World α) (hv : v.Holds xs) (hy : a.value v.data_.buffer_ = some y)
    (hq : (v.EmplaceBack e a w).quiet e w) :
    (v.EmplaceBack e a w).self.Holds (xs ++ [y]) ∧
      (v.EmplaceBack e a w).ret = some xs.length := by
  have hr := (EmplaceBack_ret_iff e v a w).mpr (quiet_nothingThrew hq)
  have hw := hq.2.2
  rw [(EmplaceBack_world e v a w).2] at hw
  obtain ⟨h1, h2, h3, h4⟩ := hv
  have hc1 := withCapacity_copies e 1 w
  have hc2 := withCapacity_copies e (v.Capacity * 2) w
  cases hk : (construct e v.data_.buffer_ a w.copies).1 with
  | none =>
    exfalso
    apply hr
    cases ha1 : (RawMemory.withCapacity e 1 w).1 <;>
    cases ha2 : (RawMemory.withCapacity e (v.Capacity * 2) w).1 <;>
    simp only [Vector.EmplaceBack, hc1, hc2, hk, ha1, ha2] <;>
    split_ifs <;> rfl
  | some x =>
    have hx : x = some y := by rw [(construct_some e _ _ _ x hk).1, hy]
    subst hx
    by_cases c1 : v.Capacity = 0
    · -- no storage yet
      rw [if_pos c1] at hw
      cases ha : (RawMemory.withCapacity e 1 w).1 with
      | none =>
        exfalso
        apply hr
        simp only [Vector.EmplaceBack, if_pos c1, ha]
      | some m =>
        obtain ⟨hm, _, _, hnone, hlen⟩ := withCapacity_some e 1 w m ha
        have hlen := hlen hw
        simp only [Vector.Capacity, RawMemory.Capacity] at c1
        have hx0 : xs.length = 0 := by omega
        simp only [Vector.EmplaceBack, Vector.Capacity, RawMemory.Capacity, if_pos c1, ha, hc1,
          hk, RawMemory.GetAddress, RawMemory.Swap, Vector.Holds, h1]
        simp only [List.length_set, hlen, hm, List.length_append, List.length_singleton, hx0,
          Nat.zero_add, Nat.add_sub_cancel, le_refl, true_and, and_true]
        intro j
        rw [slot_set, hlen, hnone, getElem?_snoc, hx0]
        by_cases hj : 0 = j
        · subst hj
          simp
        · rw [if_neg hj, if_neg (by omega), if_neg (by omega)]
    · rw [if_neg c1] at hw
      by_cases c2 : v.Capacity = v.size_
      · rw [if_pos c2] at hw
        cases ha : (RawMemory.withCapacity e (v.Capacity * 2) w).1 with
        | none =>
          exfalso
          apply hr
          simp only [Vector.EmplaceBack, if_neg c1, if_pos c2, ha]
        | some m =>
          obtain ⟨hm, _, _, hnone, hlen⟩ := withCapacity_some e _ w m ha
          have hlen := hlen hw
          simp only [Vector.EmplaceBack, if_neg c1, if_pos c2, ha, hc2, hk] at hr ⊢
          simp only [Vector.Capacity, RawMemory.Capacity] at c1 c2 hlen hm
          simp only [RawMemory.GetAddress, RawMemory.Swap, Vector.Holds, h1] at hr ⊢
          split_ifs at hr ⊢ with c3 c4
          · -- full, relocation by move
            simp only [length_move_n_dst, List.length_set, hlen, hm, List.length_append,
              List.length_singleton, Nat.add_sub_cancel, true_and, and_true]
            refine ⟨by omega, ?_⟩
            intro j
            rw [slot_move_n_dst, slot_set, List.length_set, hlen, hnone, getElem?_snoc]
            by_cases hj : j < xs.length
            · rw [if_pos (by omega), if_pos hj, Nat.zero_add, Nat.sub_zero, h4]
            · rw [if_neg (by omega), if_neg hj]
              by_cases hj2 : xs.length = j
              · rw [if_pos hj2, if_pos (by omega), if_pos hj2.symm]
              · rw [if_neg hj2, if_neg (fun h => hj2 h.symm)]
          · -- full, relocation by copy
            simp only [length_copy_n, List.length_set, hlen, hm, List.length_append,
              List.length_singleton, Nat.add_sub_cancel, true_and, and_true]
            refine ⟨by omega, ?_⟩
            intro j
            rw [slot_copy_n _ _ _ _ _ _ _ c4, slot_set, List.length_set, hlen, hnone,
              getElem?_snoc]
            by_cases hj : j < xs.length
            · rw [if_pos (by omega), if_pos hj, Nat.zero_add, Nat.sub_zero, h4]
            · rw [if_neg (by omega), if_neg hj]
              by_cases hj2 : xs.length = j
              · rw [if_pos hj2, if_pos (by omega), if_pos hj2.symm]
              · rw [if_neg hj2, if_neg (fun h => hj2 h.symm)]
          · exact absurd rfl hr
      · -- spare capacity
        simp only [Vector.EmplaceBack, if_neg c1, if_neg c2, hk]
        simp only [Vector.Capacity, RawMemory.Capacity] at c1 c2
        simp only [RawMemory.GetAddress, Vector.Holds, h1]
        simp only [List.length_set, List.length_append, List.length_singleton, Nat.add_sub_cancel,
          true_and, and_true]
        refine ⟨by omega, h3, ?_⟩
        intro j
        rw [slot_set, getElem?_snoc, h4]
        by_cases hj : j < xs.length
        · rw [if_neg (by omega), if_pos hj]
        · rw [if_neg hj]
          by_cases hj2 : xs.length = j
          · rw [if_pos hj2, if_pos (by omega), if_pos hj2.symm]
          · rw [if_neg hj2, if_neg (fun h => hj2 h.symm), List.getElem?_eq_none (by omega)]

/-- Capacity and size after a call of `EmplaceBack` that returned. -/
theorem EmplaceBack_capacity {α : Type} (e : Elem α) (v : Vector α) (a : Arg α) (w : World α)
    (hs : v.Size ≤ v.Capacity) (hr : (v.EmplaceBack e a w).ret ≠ none) :
    (v.EmplaceBack e a w).self.Capacity =
        (if v.Size = v.Capacity then max 1 (2 * v.Capacity) else v.Capacity) ∧
      (v.EmplaceBack e a w).self.Size = v.Size + 1 := by
  have hc1 := withCapacity_copies e 1 w
  have hc2 := withCapacity_copies e (v.Capacity * 2) w
  have hm1 : ∀ m, (RawMemory.withCapacity e 1 w).1 = some m → m.capacity_ = 1 :=
    fun m h => (withCapacity_some e 1 w m h).1
  have hm2 : ∀ m, (RawMemory.withCapacity e (v.Capacity * 2) w).1 = some m →
      m.capacity_ = v.Capacity * 2 :=
    fun m h => (withCapacity_some e _ w m h).1
  cases hk : (construct e v.data_.buffer_ a w.copies).1 <;>
  cases ha1 : (RawMemory.withCapacity e 1 w).1 <;>
  cases ha2 : (RawMemory.withCapacity e (v.Capacity * 2) w).1 <;>
  simp only [Vector.EmplaceBack, hc1, hc2, hk, ha1, ha2] at hr ⊢ <;>
  simp only [ha1, ha2, Option.some.injEq, forall_eq', reduceCtorEq, false_implies,
    implies_true] at hm1 hm2 <;>
  simp only [Vector.Capacity, RawMemory.Capacity, RawMemory.GetAddress, RawMemory.Swap,
    Vector.Size] at hs hr hm1 hm2 ⊢ <;>
  split_ifs at hr ⊢ <;>
  first
    | exact absurd rfl hr
    | (simp only [true_and, and_true]; omega)
    | exact ⟨rfl, rfl⟩

/-! ## `Resize`, `PopBack` and `Erase` -/

theorem Resize_same {α : Type} (e : Elem α) (v : Vector α) (n : Nat) (w : World α)
    (h : n = v.Size) : v.Resize e n w = ⟨v, w, some ()⟩ := by
  simp only [Vector.Size] at h
  simp only [Vector.Resize]
  rw [if_pos h]

/-- When `Resize` grows the vector, its effects outside the vector are those of its call
of `Reserve`. -/
theorem Resize_world {α : Type} (e : Elem α) (v : Vector α) (n : Nat) (w : World α)
    (hn : v.size_ < n) : (v.Resize e n w).world = (v.Reserve e n w).world := by
  simp only [Vector.Resize]
  rw [if_neg (by omega), if_pos (by omega)]
  cases hres : (v.Reserve e n w).ret <;> simp only [hres]

theorem Resize_shrink {α : Type} (e : Elem α) (v : Vector α) (xs : List α) (n : Nat) (w : World α)
    (hv : v.Holds xs) (hn : n < xs.length) :
    (v.Resize e n w).self.Holds (xs.take n) ∧
      (v.Resize e n w).self.Capacity = v.Capacity ∧ (v.Resize e n w).ret = some () := by
  obtain ⟨h1, h2, h3, h4⟩ := hv
  simp only [Vector.Resize, h1]
  rw [if_neg (by omega), if_neg (by omega)]
  simp only [Vector.Holds, Vector.Capacity, RawMemory.Capacity, length_destroy_n, List.length_take,
    h3, and_true, true_and]
  refine ⟨by omega, by omega, ?_⟩
  intro j
  rw [slot_destroy_n, List.getElem?_take, h4]
  by_cases hj : j < n
  · rw [if_neg (by omega), if_pos hj]
  · rw [if_neg hj]
    by_cases hj2 : j < n + (xs.length - n)
    · rw [if_pos (by omega)]
    · rw [if_neg (by omega), List.getElem?_eq_none (by omega)]

theorem Erase_holds {α : Type} (e : Elem α) (v : Vector α) (xs : List α) (p : Nat)
    (hv : v.Holds xs) (hp : p < xs.length) :
    (v.Erase e p).1.Holds (xs.eraseIdx p) ∧ (v.Erase e p).1.Capacity = v.Capacity ∧
      (v.Erase e p).2 = p := by
  obtain ⟨h1, h2, h3, h4⟩ := hv
  have hidx : xs.length - 1 = p + (xs.length - (p + 1)) := by omega
  simp only [Vector.Erase, Vector.Destroy, std_move, Vector.cend, Vector.Holds, Vector.Capacity,
    RawMemory.Capacity, List.length_set, length_move_fwd, List.length_eraseIdx, h1, h3, if_pos hp,
    and_true, true_and]
  refine ⟨by omega, ?_⟩
  intro j
  rw [hidx, slot_move_left, List.getElem?_eraseIdx, h4, h4]
  by_cases hj : j < p
  · rw [if_neg (by omega), if_neg (by omega), if_pos hj]
  · rw [if_neg hj]
    by_cases hj2 : j < p + (xs.length - (p + 1))
    · rw [if_pos (by omega)]
    · rw [if_neg (by omega)]
      by_cases hj3 : j = p + (xs.length - (p + 1))
      · rw [if_pos hj3, List.getElem?_eq_none (by omega)]
      · rw [if_neg hj3, List.getElem?_eq_none (by omega), List.getElem?_eq_none (by omega)]

/-! ## `Emplace` -/

/-- The move construction of a new last element followed by `std::move_backward` is one
backward shift that is one step longer. -/
theorem shift_right_eq {α : Type} (e : Elem α) (buf : List (Slot α)) (p size : Nat)
    (hp : p < size) :
    move_backward e
        ((buf.set size (slot buf (size - 1))).set (size - 1)
          ((slot buf (size - 1)).map e.movedFrom)) p (size - 1) size =
      move_backward_n e (size - p) buf (p + (size - p)) (p + (size - p) + 1) := by
  have h1 : size - p = (size - 1 - p) + 1 := by omega
  have h2 : p + (size - 1 - p + 1) = size := by omega
  rw [h1, h2]
  simp only [move_backward, move_backward_n, Nat.add_sub_cancel]

theorem take_length_insert {α : Type} (xs : List α) (y : α) :
    xs.take xs.length ++ [y] ++ xs.drop xs.length = xs ++ [y] := by
  simp

theorem length_insert {α : Type} (xs : List α) (p : Nat) (hp : p ≤ xs.length) (y : α) :
    (xs.take p ++ [y] ++ xs.drop p).length = xs.length + 1 := by
  simp only [List.length_append, List.length_take, List.length_drop, List.length_singleton,
    Nat.min_eq_left hp]
  omega

/-- The allocation counters after `Emplace` are those of the one allocation that the
branch taken makes. -/
theorem Emplace_world {α : Type} (e : Elem α) (v : Vector α) (pos : Nat) (a : Arg α)
    (w : World α) :
    (v.Emplace e pos a w).world.failed =
        (if pos = v.cend then (v.EmplaceBack e a w).world.failed
          else if v.Capacity = 0 then (RawMemory.withCapacity e 1 w).2.failed
          else if v.size_ = v.Capacity then
            (RawMemory.withCapacity e (v.Capacity * 2) w).2.failed
          else w.failed) ∧
      (v.Emplace e pos a w).world.wrapped =
        (if pos = v.cend then (v.EmplaceBack e a w).world.wrapped
          else if v.Capacity = 0 then (RawMemory.withCapacity e 1 w).2.wrapped
          else if v.size_ = v.Capacity then
            (RawMemory.withCapacity e (v.Capacity * 2) w).2.wrapped
          else w.wrapped) := by
  have hc1 := withCapacity_copies e 1 w
  have hc2 := withCapacity_copies e (v.Capacity * 2) w
  cases hk : (construct e v.data_.buffer_ a w.copies).1 <;>
  cases ha1 : (RawMemory.withCapacity e 1 w).1 <;>
  cases ha2 : (RawMemory.withCapacity e (v.Capacity * 2) w).1 <;>
  simp only [Vector.Emplace, hc1, hc2, hk, ha1, ha2] <;>
  split_ifs <;> exact ⟨rfl, rfl⟩

theorem Emplace_holds {α : Type} (e : Elem α) (v : Vector α) (xs : List α) (p : Nat) (a : Arg α)
    (y : α) (w : World α) (hv : v.Holds xs) (hp : p ≤ xs.length)
    (hy : a.value v.data_.buffer_ = some y) (hq : (v.Emplace e p a w).quiet e w) :
    (v.Emplace e p a w).self.Holds (xs.take p ++ [y] ++ xs.drop p) ∧
      (v.Emplace e p a w).ret = some p := by
  by_cases hend : p = v.cend
  · -- append
    have hpl : p = xs.length := by rw [hend, Vector.cend, hv.1]
    have hw : (v.Emplace e p a w).world = (v.EmplaceBack e a w).world := by
      simp only [Vector.Emplace]
      rw [if_pos hend]
    have hq2 : (v.EmplaceBack e a w).quiet e w := by
      simpa only [Outcome.quiet, hw] using hq
    obtain ⟨g1, g2⟩ := EmplaceBack_holds e v xs a y w hv hy hq2
    simp only [Vector.Emplace]
    rw [if_pos hend]
    subst hpl
    simp only [take_length_insert, g2, Vector.cbegin, Option.map_some', Nat.zero_add, Nat.sub_zero,
      and_true]
    exact g1
  · obtain ⟨h1, h2, h3, h4⟩ := hv
    have hlen := length_insert xs p hp y
    have hplt : p < xs.length := by
      simp only [Vector.cend] at hend
      omega
    have c0 : ¬ v.Capacity = 0 := by
      simp only [Vector.Capacity, RawMemory.Capacity]
      omega
    have hc2 := withCapacity_copies e (v.Capacity * 2) w
    obtain ⟨hq1, hqf, hqw⟩ := hq
    rw [(Emplace_world e v p a w).1, if_neg hend, if_neg c0] at hqf
    rw [(Emplace_world e v p a w).2, if_neg hend, if_neg c0] at hqw
    simp only [World.quietUntil] at hq1
    by_cases cf : v.size_ = v.Capacity
    · rw [if_pos cf] at hqf hqw
      cases ha : (RawMemory.withCapacity e (v.Capacity * 2) w).1 with
      | none =>
        have := (withCapacity_none e _ w ha).1
        omega
      | some m =>
        obtain ⟨hm, _, _, hnone, hbl⟩ := withCapacity_some e _ w m ha
        have hbl := hbl hqw
        cases hk : (construct e v.data_.buffer_ a w.copies).1 with
        | none =>
          exfalso
          have hc := construct_none e _ _ _ hk
          simp only [Vector.Emplace, if_neg hend, if_neg c0, if_pos cf, ha, hc2, hk,
            RawMemory.Deallocate] at hq1
          have := hq1 (w.copies + 1) (by omega) (by omega)
          simp_all
        | some x =>
          have hc := construct_some e _ _ _ x hk
          have hx : x = some y := by rw [hc.1, hy]
          subst hx
          simp only [Vector.Emplace, if_neg hend, if_neg c0, if_pos cf, ha, hc2, hk] at hq1 ⊢
          simp only [Vector.Capacity, RawMemory.Capacity] at cf hm hbl
          simp only [Vector.cbegin, RawMemory.GetAddress, RawMemory.Swap, RawMemory.Deallocate,
            Vector.Holds, Nat.sub_zero, Nat.zero_add, h1] at hq1 ⊢
          split_ifs at hq1 ⊢ with c3 c4 c5
          · -- full, relocation by move
            simp only [hlen, length_move_n_dst, List.length_set, hbl, hm, true_and, and_true]
            refine ⟨by omega, ?_⟩
            intro j
            rw [getElem?_insert xs p hp, slot_move_n_dst, slot_move_n_src, slot_move_n_dst,
              slot_set, length_move_n_dst, List.length_set, hbl, hnone]
            by_cases hj : j < p
            · rw [if_neg (by omega), if_pos (by omega), if_pos hj, Nat.zero_add, Nat.sub_zero, h4]
            · rw [if_neg hj]
              by_cases hj2 : j = p
              · rw [if_pos hj2, if_neg (by omega), if_neg (by omega), if_pos hj2.symm,
                  if_pos (by omega)]
              · rw [if_neg hj2]
                by_cases hj3 : j < xs.length + 1
                · rw [if_pos (by omega), if_neg (by omega), h4]
                  congr 1
                  omega
                · rw [if_neg (by omega), if_neg (by omega), if_neg (by omega),
                    List.getElem?_eq_none (by omega)]
          · -- full, relocation by copy, both parts copied
            simp only [hlen, length_copy_n, List.length_set, hbl, hm, true_and, and_true]
            refine ⟨by omega, ?_⟩
            intro j
            rw [getElem?_insert xs p hp, slot_copy_n _ _ _ _ _ _ _ c5,
              slot_copy_n _ _ _ _ _ _ _ c4, slot_set, length_copy_n, List.length_set, hbl, hnone]
            by_cases hj : j < p
            · rw [if_neg (by omega), if_pos (by omega), if_pos hj, Nat.zero_add, Nat.sub_zero, h4]
            · rw [if_neg hj]
              by_cases hj2 : j = p
              · rw [if_pos hj2, if_neg (by omega), if_neg (by omega), if_pos hj2.symm,
                  if_pos (by omega)]
              · rw [if_neg hj2]
                by_cases hj3 : j < xs.length + 1
                · rw [if_pos (by omega), h4]
                  congr 1
                  omega
                · rw [if_neg (by omega), if_neg (by omega), if_neg (by omega),
                    List.getElem?_eq_none (by omega)]
          · -- full, relocation by copy, a copy of the back part threw
            exfalso
            dsimp only at hq1
            simp only [Bool.not_eq_true] at c5
            have f1 := copy_n_fail e _ _ _ _ _ _ c5
            have f2 := copies_copy_n e v.data_.buffer_ p 0 (m.buffer_.set p (some y)) 0
              (construct e v.data_.buffer_ a w.copies).2
            have := hq1 _ (by omega) (le_refl _)
            simp_all
          · -- full, relocation by copy, a copy of the front part threw
            exfalso
            dsimp only at hq1
            simp only [Bool.not_eq_true] at c4
            have f1 := copy_n_fail e _ _ _ _ _ _ c4
            have := hq1 _ (by omega) (le_refl _)
            simp_all
    · cases hk : (construct e v.data_.buffer_ a w.copies).1 with
      | none =>
        exfalso
        have hc := construct_none e _ _ _ hk
        simp only [Vector.Emplace, if_neg hend, if_neg c0, if_neg cf, hk] at hq1
        have := hq1 (w.copies + 1) (by omega) (by omega)
        simp_all
      | some x =>
        have hc := construct_some e _ _ _ x hk
        have hx : x = some y := by rw [hc.1, hy]
        subst hx
        simp only [Vector.Emplace, if_neg hend, if_neg c0, if_neg cf, hk]
        simp only [Vector.Capacity, RawMemory.Capacity] at cf
        simp only [Vector.cbegin, Vector.cend, Vector.Holds, Nat.sub_zero, Nat.zero_add, h1]
        -- in place
        rw [shift_right_eq e v.data_.buffer_ p xs.length (by omega)]
        simp only [hlen, List.length_set, length_move_backward_n, h3, true_and, and_true]
        refine ⟨by omega, ?_⟩
        intro j
        rw [getElem?_insert xs p hp,
          slot_move_right e (xs.length - p) v.data_.buffer_ p (some y) (by omega)]
        by_cases hj : j < p
        · rw [if_neg (by omega), if_neg (by omega), if_pos hj, h4]
        · rw [if_neg hj]
          by_cases hj2 : j = p
          · rw [if_pos hj2, if_neg (by omega), if_pos hj2]
          · rw [if_neg hj2]
            by_cases hj3 : j ≤ xs.length
            · rw [if_pos (by omega), if_neg hj2, h4]
            · rw [if_neg (by omega), if_neg hj2, h4, List.getElem?_eq_none (by omega),
                List.getElem?_eq_none (by omega)]

/-! ## `Insert` and `PushBack` -/

theorem Insert_holds {α : Type} (e : Elem α) (v : Vector α) (xs : List α) (p : Nat)
    (value : ConstRef α) (y : α) (w : World α) (hv : v.Holds xs) (hp : p ≤ xs.length)
    (hy : value.read v.data_.buffer_ = some y) (hq : (v.Insert e p value w).quiet e w) :
    (v.Insert e p value w).self.Holds (xs.take p ++ [y] ++ xs.drop p) ∧
      (v.Insert e p value w).ret = some p := by
  simp only [Vector.Insert] at hq ⊢
  split_ifs at hq ⊢ with c1
  · by_cases ht : e.copyThrows (w.copies + 1) = true
    · exfalso
      simp only [copy_construct, ht, if_true, Outcome.quiet, World.quietUntil] at hq
      have := hq.1 (w.copies + 1) (by omega) (le_refl _)
      simp_all
    · simp only [copy_construct, ht, Bool.false_eq_true, if_false] at hq ⊢
      apply Emplace_holds e v xs p (.move (value.read v.data_.buffer_)) y _ hv hp hy
      refine ⟨?_, hq.2⟩
      intro i h1 h2
      exact hq.1 i (by simp only [] at h1; omega) h2
  · exact Emplace_holds e v xs p (.copy value) y w hv hp hy hq

theorem InsertMove_holds {α : Type} (e : Elem α) (v : Vector α) (xs : List α) (p : Nat)
    (y : α) (w : World α) (hv : v.Holds xs) (hp : p ≤ xs.length)
    (hq : (v.InsertMove e p y w).quiet e w) :
    (v.InsertMove e p y w).self.Holds (xs.take p ++ [y] ++ xs.drop p) ∧
      (v.InsertMove e p y w).ret = some p :=
  Emplace_holds e v xs p (.move (some y)) y w hv hp rfl hq

theorem PushBack_holds {α : Type} (e : Elem α) (v : Vector α) (xs : List α)
    (value : ConstRef α) (y : α) (w : World α) (hv : v.Holds xs)
    (hy : value.read v.data_.buffer_ = some y) (hq : (v.PushBack e value w).quiet e w) :
    (v.PushBack e value w).ret = some () ∧ (v.PushBack e value w).self.Holds (xs ++ [y]) := by
  obtain ⟨g1, g2⟩ := EmplaceBack_holds e v xs (.copy value) y w hv hy hq
  simp only [Vector.PushBack, g2, Option.map_some', true_and]
  exact g1

theorem PushBackMove_holds {α : Type} (e : Elem α) (v : Vector α) (xs : List α)
    (y : α) (w : World α) (hv : v.Holds xs) (hq : (v.PushBackMove e y w).quiet e w) :
    (v.PushBackMove e y w).ret = some () ∧ (v.PushBackMove e y w).self.Holds (xs ++ [y]) := by
  obtain ⟨g1, g2⟩ := EmplaceBack_holds e v xs (.move (some y)) y w hv rfl hq
  simp only [Vector.PushBackMove, g2, Option.map_some', true_and]
  exact g1

/-! ## Constructors, `Swap` and the assignments -/

theorem default_holds {α : Type} : ({} : Vector α).Holds [] := by
  refine ⟨rfl, Nat.le_refl _, rfl, ?_⟩
  intro j
  simp [slot]

/-- The allocation counters after the copy constructor are those of its allocation. -/
theorem copyCtor_world {α : Type} (e : Elem α) (other : Vector α) (w : World α) :
    (Vector.copyCtor e other w).2.failed = (RawMemory.withCapacity e other.size_ w).2.failed ∧
      (Vector.copyCtor e other w).2.wrapped =
        (RawMemory.withCapacity e other.size_ w).2.wrapped := by
  cases ha : (RawMemory.withCapacity e other.size_ w).1 with
  | none => simp only [Vector.copyCtor, ha, and_self]
  | some m =>
    simp only [Vector.copyCtor, ha]
    split_ifs <;> exact ⟨rfl, rfl⟩

theorem copyCtor_holds {α : Type} (e : Elem α) (other : Vector α) (xs : List α) (w : World α)
    (u : Vector α) (ho : other.Holds xs) (hu : (Vector.copyCtor e other w).1 = some u)
    (hs : w.served (Vector.copyCtor e other w).2) :
    u.Holds xs ∧ u.Capacity = xs.length := by
  obtain ⟨h1, h2, h3, h4⟩ := ho
  have hw := hs.2
  rw [(copyCtor_world e other w).2] at hw
  cases ha : (RawMemory.withCapacity e other.size_ w).1 with
  | none => simp [Vector.copyCtor, ha] at hu
  | some m =>
    obtain ⟨hm, _, _, hnone, hlen⟩ := withCapacity_some e _ w m ha
    have hlen := hlen hw
    simp only [Vector.copyCtor, ha] at hu
    simp only [h1] at hu hm hlen
    split_ifs at hu with c1
    simp only [Option.some.injEq] at hu
    subst hu
    simp only [Vector.Holds, Vector.Capacity, RawMemory.Capacity, length_copy_n, hlen, hm,
      le_refl, true_and, and_true]
    intro j
    rw [slot_copy_n _ _ _ _ _ _ _ c1, hlen, hnone]
    by_cases hj : j < xs.length
    · rw [if_pos (by omega), Nat.zero_add, Nat.sub_zero, h4]
    · rw [if_neg (by omega), List.getElem?_eq_none (by omega)]

theorem Swap_holds {α : Type} (v other : Vector α) (xs ys : List α) (hv : v.Holds xs)
    (ho : other.Holds ys) : (v.Swap other).1.Holds ys ∧ (v.Swap other).2.Holds xs :=
  ⟨ho, hv⟩

theorem moveAssign_holds {α : Type} (v rhs : Vector α) (xs ys : List α) (hv : v.Holds xs)
    (ho : rhs.Holds ys) : (v.moveAssign rhs).1.Holds ys ∧ (v.moveAssign rhs).2.Holds xs :=
  ⟨ho, hv⟩

theorem length_assign_n {α : Type} (src : List (Slot α)) (n : Nat) (buf : List (Slot α)) (i : Nat) :
    (assign_n src n buf i).length = buf.length := by
  induction n generalizing buf i with
  | zero => rfl
  | succ n ih => simp [assign_n, ih]

theorem slot_assign_n {α : Type} (src : List (Slot α)) (n : Nat) (buf : List (Slot α)) (i j : Nat) :
    slot (assign_n src n buf i) j =
      if i ≤ j ∧ j < i + n ∧ j < buf.length then slot src j else slot buf j := by
  induction n generalizing buf i with
  | zero =>
    have : ¬ (i ≤ j ∧ j < i + 0 ∧ j < buf.length) := by omega
    rw [if_neg this]
    rfl
  | succ n ih =>
    simp only [assign_n]
    rw [ih, slot_set, List.length_set]
    by_cases hc : i + 1 ≤ j ∧ j < i + 1 + n ∧ j < buf.length
    · rw [if_pos hc, if_pos (by omega)]
    · rw [if_neg hc]
      by_cases hj : i = j
      · subst hj
        by_cases hl : i < buf.length
        · rw [if_pos rfl, if_pos hl, if_pos (by omega)]
        · rw [if_pos rfl, if_neg hl, if_neg (by omega), slot_of_le buf i (by omega)]
      · rw [if_neg hj, if_neg (by omega)]

/-- The allocation counters after the copy assignment: those of the copy constructor on
the branch that copies and swaps, unchanged on the others. -/
theorem copyAssign_world {α : Type} (e : Elem α) (v rhs : Vector α) (w : World α) :
    (v.copyAssign e (some rhs) w).world.failed =
        (if rhs.size_ > v.data_.Capacity then (Vector.copyCtor e rhs w).2.failed
          else w.failed) ∧
      (v.copyAssign e (some rhs) w).world.wrapped =
        (if rhs.size_ > v.data_.Capacity then (Vector.copyCtor e rhs w).2.wrapped
          else w.wrapped) := by
  cases hc : (Vector.copyCtor e rhs w).1 <;>
  simp only [Vector.copyAssign, hc] <;>
  split_ifs <;> exact ⟨rfl, rfl⟩

/-- The copy constructor is left by an exception only when something threw: the
allocation or one of the copies. -/
theorem copyCtor_none {α : Type} (e : Elem α) (other : Vector α) (w : World α)
    (h : (Vector.copyCtor e other w).1 = none) :
    (Vector.copyCtor e other w).2.failed = w.failed + 1 ∨
      (w.copies < (Vector.copyCtor e other w).2.copies ∧
        e.copyThrows (Vector.copyCtor e other w).2.copies = true) := by
  have hcp := withCapacity_copies e other.size_ w
  cases ha : (RawMemory.withCapacity e other.size_ w).1 with
  | none =>
    left
    simp only [Vector.copyCtor, ha]
    exact (withCapacity_none e _ w ha).1
  | some m =>
    right
    simp only [Vector.copyCtor, ha, hcp] at h ⊢
    split_ifs at h ⊢ with hok
    simp only [Bool.not_eq_true] at hok
    have hf := copy_n_fail e _ _ _ _ _ _ hok
    exact ⟨hf.1, hf.2.2⟩

/-- The copy assignment returns when nothing threw during it. -/
theorem copyAssign_ret_of_quiet {α : Type} (e : Elem α) (v rhs : Vector α) (w : World α)
    (hq : (v.copyAssign e (some rhs) w).nothingThrew e w) :
    (v.copyAssign e (some rhs) w).ret = some () := by
  obtain ⟨hq1, hqf⟩ := hq
  rw [(copyAssign_world e v rhs w).1] at hqf
  simp only [Vector.copyAssign, World.quietUntil] at hq1 ⊢
  by_cases c1 : rhs.size_ > v.data_.Capacity
  · simp only [c1, if_true] at hq1 hqf ⊢
    cases hc : (Vector.copyCtor e rhs w).1 with
    | some u => rfl
    | none =>
      exfalso
      simp only [hc] at hq1
      rcases copyCtor_none e rhs w hc with hf | ⟨hf1, hf2⟩
      · omega
      · have := hq1 _ hf1 (Nat.le_refl _)
        rw [hf2] at this
        exact Bool.noConfusion this
  · simp only [c1, if_false] at hq1 ⊢
    split_ifs at hq1 ⊢ with c2 c3 c4
    · rfl
    · rfl
    · exfalso
      simp only [Bool.not_eq_true] at c4
      have hf := copy_n_fail e _ _ _ _ _ _ c4
      have := hq1 _ hf.1 (Nat.le_refl _)
      rw [hf.2.2] at this
      exact Bool.noConfusion this
    · rfl

theorem copyAssign_holds {α : Type} (e : Elem α) (v rhs : Vector α) (xs ys : List α)
    (w : World α) (hv : v.Holds xs) (ho : rhs.Holds ys)
    (hq : (v.copyAssign e (some rhs) w).quiet e w) :
    (v.copyAssign e (some rhs) w).self.Holds ys := by
  have hr := copyAssign_ret_of_quiet e v rhs w (quiet_nothingThrew hq)
  have hqf := hq.2.1
  have hqw := hq.2.2
  rw [(copyAssign_world e v rhs w).1] at hqf
  rw [(copyAssign_world e v rhs w).2] at hqw
  obtain ⟨h1, h2, h3, h4⟩ := hv
  obtain ⟨g1, g2, g3, g4⟩ := ho
  simp only [RawMemory.Capacity, g1] at hqf hqw
  simp only [Vector.copyAssign, RawMemory.Capacity, g1, h1] at hr ⊢
  split_ifs at hr hqf hqw ⊢ with c1 c2 c3 c4
  · cases hc : (Vector.copyCtor e rhs w).1 with
    | none => simp [hc] at hr
    | some u =>
      simp only [hc]
      exact (copyCtor_holds e rhs ys w u ⟨g1, g2, g3, g4⟩ hc ⟨hqf, hqw⟩).1
  · simp only [Vector.Holds, DestroyN_eq, length_destroy_n, length_assign_n, g1, h1, h3, true_and]
    refine ⟨by omega, ?_⟩
    intro j
    rw [slot_destroy_n, slot_assign_n, h3, h4, g4]
    by_cases hj : j < ys.length
    · rw [if_neg (by omega), if_pos (by omega)]
    · rw [List.getElem?_eq_none (by omega)]
      by_cases hj2 : j < xs.length
      · rw [if_pos (by omega)]
      · rw [if_neg (by omega), if_neg (by omega), List.getElem?_eq_none (by omega)]
  · simp only [Vector.Holds, length_copy_n, length_assign_n, g1, h1, h3, true_and]
    refine ⟨by omega, ?_⟩
    intro j
    rw [slot_copy_n _ _ _ _ _ _ _ c4, slot_assign_n, length_assign_n, h3, h4, g4, g4]
    by_cases hj : j < xs.length
    · rw [if_neg (by omega), if_pos (by omega)]
    · by_cases hj2 : j < ys.length
      · rw [if_pos (by omega)]
        congr 1
        omega
      · rw [if_neg (by omega), if_neg (by omega), List.getElem?_eq_none (by omega),
          List.getElem?_eq_none (by omega)]
  · omega

/-! ## Further facts used by the claims -/

theorem eraseIdx_insert {α : Type} (xs : List α) (p : Nat) (hp : p ≤ xs.length) (y : α) :
    (xs.take p ++ [y] ++ xs.drop p).eraseIdx p = xs := by
  apply List.ext_getElem?
  intro j
  rw [List.getElem?_eraseIdx]
  by_cases hj : j < p
  · rw [if_pos hj, getElem?_insert xs p hp, if_pos hj]
  · rw [if_neg hj, getElem?_insert xs p hp, if_neg (by omega), if_neg (by omega)]
    rfl

/-- For an element type whose copy constructor never throws, a call during which every
allocation request was served is a call during which nothing failed. -/
theorem quiet_of_served {α ρ : Type} (e : Elem α) (h : e.NoThrow) (w : World α)
    (r : Outcome α ρ) (hs : w.served r.world) : r.quiet e w :=
  ⟨fun i _ _ => h i, hs⟩

theorem Holds.size_eq {α : Type} {v : Vector α} {xs : List α} (h : v.Holds xs) :
    v.Size = xs.length :=
  h.1

theorem Holds.restored {α : Type} {v : Vector α} {xs : List α} (h : v.Holds xs) :
    v.Restored xs :=
  ⟨h.inv, h.1, h.toList_eq⟩

theorem Holds.insertedAt {α : Type} {r : Outcome α Nat} {xs : List α} {p : Nat} {y : α}
    (hp : p ≤ xs.length) (h : r.self.Holds (xs.take p ++ [y] ++ xs.drop p))
    (hr : r.ret = some p) : r.InsertedAt xs p y := by
  refine ⟨h.inv, h.toList_eq, ?_, ?_, ?_⟩
  · rw [Holds.size_eq h, length_insert xs p hp]
  · simpa [Vector.cbegin] using hr
  · simp only [Vector.index, RawMemory.index]
    rw [h.2.2.2 p, getElem?_insert xs p hp, if_neg (by omega), if_pos rfl]

/-- The allocation counters never decrease in `RawMemory(capacity)`. -/
theorem withCapacity_mono {α : Type} (e : Elem α) (n : Nat) (w : World α) :
    w.failed ≤ (RawMemory.withCapacity e n w).2.failed ∧
      w.wrapped ≤ (RawMemory.withCapacity e n w).2.wrapped := by
  cases ha : (RawMemory.withCapacity e n w).1 with
  | none =>
    have := withCapacity_none e n w ha
    omega
  | some m =>
    have := withCapacity_some e n w m ha
    omega

theorem EmplaceBack_copies_le {α : Type} (e : Elem α) (v : Vector α) (a : Arg α) (w : World α) :
    w.copies ≤ (v.EmplaceBack e a w).world.copies := by
  have hc1 := withCapacity_copies e 1 w
  have hc2 := withCapacity_copies e (v.Capacity * 2) w
  cases hk : (construct e v.data_.buffer_ a w.copies).1 with
  | none =>
    have hc := construct_none e _ _ _ hk
    cases ha1 : (RawMemory.withCapacity e 1 w).1 <;>
    cases ha2 : (RawMemory.withCapacity e (v.Capacity * 2) w).1 <;>
    simp only [Vector.EmplaceBack, hc1, hc2, hk, ha1, ha2] <;>
    split_ifs <;> simp only [RawMemory.Deallocate] <;> omega
  | some x =>
    have hc := construct_some e _ _ _ x hk
    have hcp : ∀ dst, (construct e v.data_.buffer_ a w.copies).2 ≤
        (uninitialized_copy_n e v.data_.GetAddress v.size_ 0 dst 0
          (construct e v.data_.buffer_ a w.copies).2).copies :=
      fun dst => (copies_copy_n e _ _ _ _ _ _).1
    cases ha1 : (RawMemory.withCapacity e 1 w).1 <;>
    cases ha2 : (RawMemory.withCapacity e (v.Capacity * 2) w).1 <;>
    simp only [Vector.EmplaceBack, hc1, hc2, hk, ha1, ha2] <;>
    split_ifs <;> simp only [RawMemory.Deallocate] <;>
    first | omega | exact Nat.le_trans hc.2.1 (hcp _)

/-- The counters of the world never decrease in `EmplaceBack`. -/
theorem EmplaceBack_mono {α : Type} (e : Elem α) (v : Vector α) (a : Arg α) (w : World α) :
    w.copies ≤ (v.EmplaceBack e a w).world.copies ∧
      w.failed ≤ (v.EmplaceBack e a w).world.failed ∧
      w.wrapped ≤ (v.EmplaceBack e a w).world.wrapped := by
  have h1 := withCapacity_mono e 1 w
  have h2 := withCapacity_mono e (v.Capacity * 2) w
  refine ⟨EmplaceBack_copies_le e v a w, ?_, ?_⟩
  · rw [(EmplaceBack_world e v a w).1]
    split_ifs <;> omega
  · rw [(EmplaceBack_world e v a w).2]
    split_ifs <;> omega

theorem Resize_ret_of_quiet {α : Type} (e : Elem α) (v : Vector α) (n : Nat) (w : World α)
    (hq : (v.Resize e n w).nothingThrew e w) : (v.Resize e n w).ret = some () := by
  simp only [Vector.Resize] at hq ⊢
  split_ifs at hq ⊢ with c1 c2
  · rfl
  · cases hres : (v.Reserve e n w).ret with
    | none =>
      exfalso
      simp only [hres] at hq
      have := (Reserve_ret_iff e v n w).mpr hq
      rw [hres] at this
      exact Option.noConfusion this
    | some u => rfl
  · rfl

/-! ## Runs of `PushBack` -/

/-- The counters of the world never decrease in a call of `PushBack`. -/
theorem push_mono {α : Type} (e : Elem α) (v : Vector α) (p : Push α) (w : World α) :
    w.copies ≤ (v.push e p w).world.copies ∧ w.failed ≤ (v.push e p w).world.failed ∧
      w.wrapped ≤ (v.push e p w).world.wrapped := by
  cases p with
  | byCopy value => exact EmplaceBack_mono e v (.copy value) w
  | byMove value => exact EmplaceBack_mono e v (.move (some value)) w

/-- The counters of the world never decrease in a run of `PushBack` calls. -/
theorem pushBackAll_mono {α : Type} (e : Elem α) (ps : List (Push α)) (v : Vector α)
    (w : World α) :
    w.copies ≤ (pushBackAll e ps v w).world.copies ∧
      w.failed ≤ (pushBackAll e ps v w).world.failed ∧
      w.wrapped ≤ (pushBackAll e ps v w).world.wrapped := by
  induction ps generalizing v w with
  | nil => exact ⟨Nat.le_refl _, Nat.le_refl _, Nat.le_refl _⟩
  | cons p ps ih =>
    have h1 := push_mono e v p w
    simp only [pushBackAll]
    cases hr : (v.push e p w).ret with
    | none => exact h1
    | some u =>
      have h2 := ih (v.push e p w).self (v.push e p w).world
      simp only []
      omega

/-- In a run of `PushBack` calls during which nothing failed, nothing failed during the
first call, nor, when that call returned, during the rest of the run. -/
theorem pushBackAll_quiet {α : Type} (e : Elem α) (p : Push α) (ps : List (Push α))
    (v : Vector α) (w : World α) (hq : (pushBackAll e (p :: ps) v w).quiet e w) :
    (v.push e p w).quiet e w ∧
      ((v.push e p w).ret ≠ none →
        (pushBackAll e ps (v.push e p w).self (v.push e p w).world).quiet e
          (v.push e p w).world) := by
  have h1 := push_mono e v p w
  have h2 := pushBackAll_mono e ps (v.push e p w).self (v.push e p w).world
  obtain ⟨q1, q2, q3⟩ := hq
  simp only [pushBackAll, World.quietUntil] at q1 q2 q3
  cases hr : (v.push e p w).ret with
  | none =>
    simp only [hr] at q1 q2 q3
    exact ⟨⟨q1, q2, q3⟩, fun h => absurd rfl h⟩
  | some u =>
    simp only [hr] at q1 q2 q3
    refine ⟨⟨?_, ?_, ?_⟩, fun _ => ⟨?_, ?_, ?_⟩⟩
    · intro i hi1 hi2
      exact q1 i hi1 (by omega)
    · omega
    · omega
    · intro i hi1 hi2
      exact q1 i (by omega) hi2
    · omega
    · omega

/-- One call of `PushBack`, through either overload, during which nothing failed: the
call returns and the value passed is the new last element. -/
theorem push_holds {α : Type} (e : Elem α) (v : Vector α) (xs : List α) (p : Push α) (y : α)
    (w : World α) (hv : v.Holds xs) (hy : p.passes xs = some y) (hq : (v.push e p w).quiet e w) :
    (v.push e p w).ret = some () ∧ (v.push e p w).self.Holds (xs ++ [y]) := by
  cases p with
  | byCopy value =>
    apply PushBack_holds e v xs value y w hv ?_ hq
    cases value with
    | outside x => exact hy
    | element i =>
      simp only [Push.passes] at hy
      simp only [ConstRef.read]
      rw [hv.2.2.2 i, hy]
  | byMove value =>
    simp only [Push.passes, Option.some.injEq] at hy
    subst hy
    exact PushBackMove_holds e v xs value w hv hq

theorem pushBackAll_holds {α : Type} (e : Elem α) (ps : List (Push α)) (v : Vector α)
    (xs vs : List α) (w : World α) (hv : v.Holds xs) (hvs : passedValues ps xs = some vs)
    (hq : (pushBackAll e ps v w).quiet e w) :
    (pushBackAll e ps v w).ret = some () ∧ (pushBackAll e ps v w).self.Holds (xs ++ vs) ∧
      vs.length = ps.length := by
  induction ps generalizing v xs vs w with
  | nil =>
    simp only [passedValues, Option.some.injEq] at hvs
    subst hvs
    simp only [pushBackAll, List.append_nil, List.length_nil, true_and, and_true]
    exact hv
  | cons p ps ih =>
    obtain ⟨hq1, hq2⟩ := pushBackAll_quiet e p ps v w hq
    simp only [passedValues] at hvs
    cases hp : p.passes xs with
    | none => simp [hp] at hvs
    | some x =>
      simp only [hp, Option.map_eq_some'] at hvs
      obtain ⟨vs2, hvs2, rfl⟩ := hvs
      obtain ⟨g1, g2⟩ := push_holds e v xs p x w hv hp hq1
      obtain ⟨i1, i2, i3⟩ := ih (v.push e p w).self (xs ++ [x]) vs2 (v.push e p w).world g2 hvs2
        (hq2 (by rw [g1]; exact Option.some_ne_none _))
      simp only [pushBackAll, g1, List.length_cons, i3, and_true]
      refine ⟨i1, ?_⟩
      simpa using i2

/-! ## Reachable states -/

theorem rolledBack_of {α ρ : Type} {r : Outcome α ρ} {v : Vector α} (h1 : r.ret = none)
    (h2 : r.self = v) : r.RolledBack v := by
  refine ⟨h1, h2, ?_, ?_, ?_⟩ <;> rw [h2]

theorem Reserve_cap_mono {α : Type} (e : Elem α) (v : Vector α) (n : Nat) (w : World α) :
    v.Capacity ≤ (v.Reserve e n w).self.Capacity := by
  cases ha : (RawMemory.withCapacity e n w).1 with
  | none =>
    simp only [Vector.Reserve, ha]
    split_ifs <;> exact Nat.le_refl _
  | some m =>
    have hm := (withCapacity_some e n w m ha).1
    simp only [Vector.Reserve, Vector.Capacity, RawMemory.Capacity, RawMemory.Swap, ha]
    split_ifs <;> simp only [] <;> omega

theorem EmplaceBack_cap_mono {α : Type} (e : Elem α) (v : Vector α) (a : Arg α)
    (w : World α) : v.Capacity ≤ (v.EmplaceBack e a w).self.Capacity := by
  have hc1 := withCapacity_copies e 1 w
  have hc2 := withCapacity_copies e (v.Capacity * 2) w
  have hm1 : ∀ m, (RawMemory.withCapacity e 1 w).1 = some m → m.capacity_ = 1 :=
    fun m h => (withCapacity_some e 1 w m h).1
  have hm2 : ∀ m, (RawMemory.withCapacity e (v.Capacity * 2) w).1 = some m →
      m.capacity_ = v.Capacity * 2 :=
    fun m h => (withCapacity_some e _ w m h).1
  cases hk : (construct e v.data_.buffer_ a w.copies).1 <;>
  cases ha1 : (RawMemory.withCapacity e 1 w).1 <;>
  cases ha2 : (RawMemory.withCapacity e (v.Capacity * 2) w).1 <;>
  simp only [Vector.EmplaceBack, hc1, hc2, hk, ha1, ha2] <;>
  simp only [ha1, ha2, Option.some.injEq, forall_eq', reduceCtorEq, false_implies,
    implies_true] at hm1 hm2 <;>
  simp only [Vector.Capacity, RawMemory.Capacity, RawMemory.Swap] at hm1 hm2 ⊢ <;>
  split_ifs <;> simp only [] <;> omega

theorem Resize_cap_mono {α : Type} (e : Elem α) (v : Vector α) (n : Nat) (w : World α) :
    v.Capacity ≤ (v.Resize e n w).self.Capacity := by
  have hr := Reserve_cap_mono e v n w
  simp only [Vector.Resize]
  split_ifs
  · exact Nat.le_refl _
  · cases hres : (v.Reserve e n w).ret with
    | none => exact hr
    | some u => exact hr
  · exact Nat.le_refl _

theorem Emplace_cap_mono {α : Type} (e : Elem α) (v : Vector α) (pos : Nat) (a : Arg α)
    (w : World α) : v.Capacity ≤ (v.Emplace e pos a w).self.Capacity := by
  have hb := EmplaceBack_cap_mono e v a w
  simp only [Vector.Capacity, RawMemory.Capacity] at hb
  have hc1 := withCapacity_copies e 1 w
  have hc2 := withCapacity_copies e (v.Capacity * 2) w
  have hm1 : ∀ m, (RawMemory.withCapacity e 1 w).1 = some m → m.capacity_ = 1 :=
    fun m h => (withCapacity_some e 1 w m h).1
  have hm2 : ∀ m, (RawMemory.withCapacity e (v.Capacity * 2) w).1 = some m →
      m.capacity_ = v.Capacity * 2 :=
    fun m h => (withCapacity_some e _ w m h).1
  cases hk : (construct e v.data_.buffer_ a w.copies).1 <;>
  cases ha1 : (RawMemory.withCapacity e 1 w).1 <;>
  cases ha2 : (RawMemory.withCapacity e (v.Capacity * 2) w).1 <;>
  simp only [Vector.Emplace, hc1, hc2, hk, ha1, ha2] <;>
  simp only [ha1, ha2, Option.some.injEq, forall_eq', reduceCtorEq, false_implies,
    implies_true] at hm1 hm2 <;>
  simp only [Vector.Capacity, RawMemory.Capacity, RawMemory.Swap] at hm1 hm2 ⊢ <;>
  split_ifs <;>
  first | exact hb | exact Nat.le_refl _ | (dsimp only; omega)

theorem Insert_cap_mono {α : Type} (e : Elem α) (v : Vector α) (pos : Nat)
    (value : ConstRef α) (w : World α) : v.Capacity ≤ (v.Insert e pos value w).self.Capacity := by
  simp only [Vector.Insert]
  split_ifs
  · cases ht : (copy_construct e v.data_.buffer_ value w.copies).1 with
    | none => exact Nat.le_refl _
    | some x => exact Emplace_cap_mono e v pos _ _
  · exact Emplace_cap_mono e v pos _ _

theorem copyCtor_capacity {α : Type} (e : Elem α) (other u : Vector α) (w : World α)
    (hu : (Vector.copyCtor e other w).1 = some u) :
    u.Capacity = other.size_ ∧ u.size_ = other.size_ := by
  cases ha : (RawMemory.withCapacity e other.size_ w).1 with
  | none => simp [Vector.copyCtor, ha] at hu
  | some m =>
    have hm := (withCapacity_some e _ w m ha).1
    simp only [Vector.copyCtor, ha] at hu
    split_ifs at hu
    simp only [Option.some.injEq] at hu
    subst hu
    exact ⟨hm, rfl⟩

/-- The capacity after a copy assignment that returned. -/
theorem copyAssign_capacity {α : Type} (e : Elem α) (v rhs : Vector α) (w : World α)
    (hr : (v.copyAssign e (some rhs) w).ret = some ()) :
    (v.copyAssign e (some rhs) w).self.Capacity =
      if rhs.Size > v.Capacity then rhs.Size else v.Capacity := by
  simp only [Vector.copyAssign, Vector.Size, Vector.Capacity] at hr ⊢
  by_cases c1 : rhs.size_ > v.data_.Capacity
  · simp only [c1, if_true] at hr ⊢
    cases hc : (Vector.copyCtor e rhs w).1 with
    | none => simp [hc] at hr
    | some u =>
      simp only [hc]
      exact (copyCtor_capacity e rhs u w hc).1
  · simp only [c1, if_false] at hr ⊢
    split_ifs <;> rfl

theorem copyAssign_cap_mono {α : Type} (e : Elem α) (v : Vector α)
    (rhs : Option (Vector α)) (w : World α) :
    v.Capacity ≤ (v.copyAssign e rhs w).self.Capacity := by
  cases rhs with
  | none => exact Nat.le_refl _
  | some rhs =>
    simp only [Vector.copyAssign, Vector.Capacity]
    by_cases c1 : rhs.size_ > v.data_.Capacity
    · simp only [c1, if_true]
      cases hc : (Vector.copyCtor e rhs w).1 with
      | none => exact Nat.le_refl _
      | some u =>
        have := (copyCtor_capacity e rhs u w hc).1
        simp only [Vector.Capacity] at this
        simp only [Vector.Swap, RawMemory.Swap, RawMemory.Capacity] at this c1 ⊢
        omega
    · simp only [c1, if_false]
      split_ifs <;> exact Nat.le_refl _

/-! ## Growth of the capacity under `PushBack` -/

/-- One call of `EmplaceBack` that returned, on a vector with `size_ ≤ capacity_`: either
there was a spare slot and neither the capacity nor the list of released blocks changed,
or the vector was full, the capacity became `max(1, 2 * capacity)` and exactly one block
was released. -/
theorem EmplaceBack_step {α : Type} (e : Elem α) (v : Vector α) (a : Arg α) (w : World α)
    (hs : v.size_ ≤ v.data_.capacity_) (hr : (v.EmplaceBack e a w).ret ≠ none) :
    (v.size_ < v.data_.capacity_ ∧
        (v.EmplaceBack e a w).self.data_.capacity_ = v.data_.capacity_ ∧
        (v.EmplaceBack e a w).world.released = w.released) ∨
      (v.size_ = v.data_.capacity_ ∧
        (v.EmplaceBack e a w).self.data_.capacity_ = max 1 (2 * v.data_.capacity_) ∧
        (v.EmplaceBack e a w).world.released.length = w.released.length + 1) := by
  have hc1 := withCapacity_copies e 1 w
  have hc2 := withCapacity_copies e (v.Capacity * 2) w
  have hr1 := withCapacity_released e 1 w
  have hr2 := withCapacity_released e (v.Capacity * 2) w
  have hm1 : ∀ m, (RawMemory.withCapacity e 1 w).1 = some m → m.capacity_ = 1 :=
    fun m h => (withCapacity_some e 1 w m h).1
  have hm2 : ∀ m, (RawMemory.withCapacity e (v.Capacity * 2) w).1 = some m →
      m.capacity_ = v.Capacity * 2 :=
    fun m h => (withCapacity_some e _ w m h).1
  cases hk : (construct e v.data_.buffer_ a w.copies).1 <;>
  cases ha1 : (RawMemory.withCapacity e 1 w).1 <;>
  cases ha2 : (RawMemory.withCapacity e (v.Capacity * 2) w).1 <;>
  simp only [Vector.EmplaceBack, hc1, hc2, hk, ha1, ha2, RawMemory.Deallocate, hr1,
    hr2] at hr ⊢ <;>
  simp only [ha1, ha2, Option.some.injEq, forall_eq', reduceCtorEq, false_implies,
    implies_true] at hm1 hm2 <;>
  simp only [Vector.Capacity, RawMemory.Capacity, RawMemory.GetAddress,
    RawMemory.Swap] at hr hm1 hm2 ⊢ <;>
  split_ifs at hr ⊢ <;>
  first
    | exact absurd rfl hr
    | (simp only [List.length_append, List.length_singleton, and_true, true_and]; omega)

/-- A call of `PushBack`, through either overload, during which nothing threw returns. -/
theorem push_ret_of_quiet {α : Type} (e : Elem α) (v : Vector α) (p : Push α) (w : World α)
    (hq : (v.push e p w).nothingThrew e w) : (v.push e p w).ret ≠ none := by
  cases p with
  | byCopy value =>
    have h := (EmplaceBack_ret_iff e v (.copy value) w).mpr hq
    simpa [Vector.push, Vector.PushBack] using h
  | byMove value =>
    have h := (EmplaceBack_ret_iff e v (.move (some value)) w).mpr hq
    simpa [Vector.push, Vector.PushBackMove] using h

/-- One call of `PushBack` that returned, through either overload, on a vector with
`size_ ≤ capacity_`: the size grows by one, and either there was a spare slot and neither
the capacity nor the list of released blocks changed, or the vector was full, the capacity
became `max(1, 2 * capacity)` and exactly one block was released. -/
theorem push_step {α : Type} (e : Elem α) (v : Vector α) (p : Push α) (w : World α)
    (hs : v.size_ ≤ v.data_.capacity_) (hr : (v.push e p w).ret ≠ none) :
    (v.push e p w).self.size_ = v.size_ + 1 ∧
      ((v.size_ < v.data_.capacity_ ∧
          (v.push e p w).self.data_.capacity_ = v.data_.capacity_ ∧
          (v.push e p w).world.released = w.released) ∨
        (v.size_ = v.data_.capacity_ ∧
          (v.push e p w).self.data_.capacity_ = max 1 (2 * v.data_.capacity_) ∧
          (v.push e p w).world.released.length = w.released.length + 1)) := by
  cases p with
  | byCopy value =>
    have hne : (v.EmplaceBack e (.copy value) w).ret ≠ none := by
      intro h
      apply hr
      simp [Vector.push, Vector.PushBack, h]
    exact ⟨(EmplaceBack_capacity e v _ w hs hne).2, EmplaceBack_step e v _ w hs hne⟩
  | byMove value =>
    have hne : (v.EmplaceBack e (.move (some value)) w).ret ≠ none := by
      intro h
      apply hr
      simp [Vector.push, Vector.PushBackMove, h]
    exact ⟨(EmplaceBack_capacity e v _ w hs hne).2, EmplaceBack_step e v _ w hs hne⟩

theorem growth_step (k c r : Nat)
    (h : (k = 0 ∧ c = 0 ∧ r = 0) ∨ (1 ≤ k ∧ k ≤ c ∧ c < 2 * k ∧ c = 2 ^ (r - 1) ∧ 1 ≤ r)) :
    (k = c → 1 ≤ k + 1 ∧ k + 1 ≤ max 1 (2 * c) ∧ max 1 (2 * c) < 2 * (k + 1) ∧
        max 1 (2 * c) = 2 ^ (r + 1 - 1) ∧ 1 ≤ r + 1) ∧
      (k < c → 1 ≤ k + 1 ∧ k + 1 ≤ c ∧ c < 2 * (k + 1) ∧ c = 2 ^ (r - 1) ∧ 1 ≤ r) := by
  rcases h with ⟨h1, h2, h3⟩ | ⟨h1, h2, h3, h4, h5⟩
  · subst h1 h2 h3
    refine ⟨fun _ => ⟨by omega, by simp, by simp, by simp, by omega⟩, fun h => absurd h (by omega)⟩
  · refine ⟨?_, fun h => ⟨by omega, by omega, by omega, h4, h5⟩⟩
    intro hkc
    have hpow : 2 ^ (r + 1 - 1) = 2 * 2 ^ (r - 1) := by
      have : r + 1 - 1 = (r - 1) + 1 := by omega
      rw [this, pow_succ]
      omega
    have hmax : max 1 (2 * c) = 2 * c := by omega
    rw [hmax, hpow, ← h4]
    exact ⟨by omega, by omega, by omega, rfl, by omega⟩

/-- A run of `PushBack` calls during which nothing failed, from a vector of `k` elements
whose capacity is 0 for `k = 0` and the power of two `2 ^ (r0 - 1)` with
`k ≤ capacity < 2 * k` otherwise: the run releases `d` blocks, and the vector reached has
`k + N` elements and a capacity of the same form for `r0 + d`. -/
theorem pushBackAll_growth {α : Type} (e : Elem α) (ps : List (Push α)) (v : Vector α)
    (w : World α) (r0 : Nat) (hq : (pushBackAll e ps v w).quiet e w)
    (hg : (v.size_ = 0 ∧ v.data_.capacity_ = 0 ∧ r0 = 0) ∨
      (1 ≤ v.size_ ∧ v.size_ ≤ v.data_.capacity_ ∧ v.data_.capacity_ < 2 * v.size_ ∧
        v.data_.capacity_ = 2 ^ (r0 - 1) ∧ 1 ≤ r0)) :
    ∃ d, (pushBackAll e ps v w).world.released.length = w.released.length + d ∧
      ((v.size_ + ps.length = 0 ∧ (pushBackAll e ps v w).self.data_.capacity_ = 0 ∧
          r0 + d = 0) ∨
        (1 ≤ v.size_ + ps.length ∧
          v.size_ + ps.length ≤ (pushBackAll e ps v w).self.data_.capacity_ ∧
          (pushBackAll e ps v w).self.data_.capacity_ < 2 * (v.size_ + ps.length) ∧
          (pushBackAll e ps v w).self.data_.capacity_ = 2 ^ (r0 + d - 1) ∧ 1 ≤ r0 + d)) := by
  induction ps generalizing v w r0 with
  | nil =>
    refine ⟨0, rfl, ?_⟩
    simpa [pushBackAll] using hg
  | cons p ps ih =>
    obtain ⟨hq1, hq2⟩ := pushBackAll_quiet e p ps v w hq
    have hne := push_ret_of_quiet e v p w (quiet_nothingThrew hq1)
    have hq2 := hq2 hne
    have hs : v.size_ ≤ v.data_.capacity_ := by omega
    obtain ⟨hsz, hstep⟩ := push_step e v p w hs hne
    have hgs := growth_step v.size_ v.data_.capacity_ r0 hg
    obtain ⟨u, hu⟩ := Option.ne_none_iff_exists'.mp hne
    simp only [pushBackAll, hu]
    rcases hstep with ⟨s1, s2, s3⟩ | ⟨s1, s2, s3⟩
    · obtain ⟨d, hd1, hd2⟩ := ih (v.push e p w).self (v.push e p w).world r0 hq2 (by
        right
        rw [hsz, s2]
        exact hgs.2 (by omega))
      refine ⟨d, ?_, ?_⟩
      · rw [hd1, s3]
      · rw [hsz] at hd2
        simp only [List.length_cons]
        rcases hd2 with hd2 | hd2
        · left
          exact ⟨by omega, hd2.2.1, hd2.2.2⟩
        · right
          exact ⟨by omega, by omega, by omega, hd2.2.2.2.1, hd2.2.2.2.2⟩
    · obtain ⟨d, hd1, hd2⟩ := ih (v.push e p w).self (v.push e p w).world (r0 + 1) hq2 (by
        right
        rw [hsz, s2]
        exact hgs.1 (by omega))
      refine ⟨1 + d, ?_, ?_⟩
      · rw [hd1, s3]
        omega
      · rw [hsz] at hd2
        simp only [List.length_cons]
        have e1 : r0 + (1 + d) = r0 + 1 + d := by omega
        rw [e1]
        rcases hd2 with hd2 | hd2
        · left
          exact ⟨by omega, hd2.2.1, hd2.2.2⟩
        · right
          exact ⟨by omega, by omega, by omega, hd2.2.2.2.1, hd2.2.2.2.2⟩

/-- A power of two `2 ^ m` with `n ≤ 2 ^ m < 2 * n` has the exponent `⌈log₂ n⌉`. -/
theorem clog_of_bounds (n m : Nat) (h1 : n ≤ 2 ^ m) (h2 : 2 ^ m < 2 * n) :
    Nat.clog 2 n = m := by
  apply Nat.le_antisymm
  · exact (Nat.le_pow_iff_clog_le (by decide)).mp h1
  · cases m with
    | zero => exact Nat.zero_le _
    | succ k =>
      have h3 : 2 ^ k < n := by
        rw [pow_succ] at h2
        omega
      exact (Nat.pow_lt_iff_lt_clog (by decide)).mp h3

/-! ## Calls left by `std::bad_alloc` -/

/-- An allocation that does not return is one that threw. -/
theorem withCapacity_failed {α : Type} (e : Elem α) (n : Nat) (w : World α)
    (h : (RawMemory.withCapacity e n w).2.failed ≠ w.failed) :
    (RawMemory.withCapacity e n w).1 = none := by
  cases ha : (RawMemory.withCapacity e n w).1 with
  | none => rfl
  | some m => exact absurd (withCapacity_some e n w m ha).2.1 h

theorem Reserve_bad_alloc_keeps {α : Type} (e : Elem α) (v : Vector α) (n : Nat) (w : World α)
    (h : (v.Reserve e n w).world.failed ≠ w.failed) :
    (v.Reserve e n w).ret = none ∧ (v.Reserve e n w).self = v := by
  have h1 : (v.Reserve e n w).ret = none := by
    cases hr : (v.Reserve e n w).ret with
    | none => rfl
    | some u => exact absurd ((Reserve_ret_iff e v n w).mp hr).2 h
  exact ⟨h1, Reserve_thrown e v n w h1⟩

theorem EmplaceBack_bad_alloc_keeps {α : Type} (e : Elem α) (v : Vector α) (a : Arg α)
    (w : World α) (h : (v.EmplaceBack e a w).world.failed ≠ w.failed) :
    (v.EmplaceBack e a w).ret = none ∧ (v.EmplaceBack e a w).self = v := by
  have h1 : (v.EmplaceBack e a w).ret = none := by
    by_contra hne
    exact h ((EmplaceBack_ret_iff e v a w).mp hne).2
  exact ⟨h1, EmplaceBack_thrown e v a w h1⟩

theorem Resize_bad_alloc_keeps {α : Type} (e : Elem α) (v : Vector α) (n : Nat) (w : World α)
    (h : (v.Resize e n w).world.failed ≠ w.failed) :
    (v.Resize e n w).ret = none ∧ (v.Resize e n w).self = v := by
  by_cases hn : v.size_ < n
  · rw [Resize_world e v n w hn] at h
    obtain ⟨h1, h2⟩ := Reserve_bad_alloc_keeps e v n w h
    simp only [Vector.Resize]
    rw [if_neg (by omega), if_pos (by omega)]
    simp only [h1, h2, and_self]
  · exfalso
    apply h
    simp only [Vector.Resize]
    by_cases h0 : n = v.size_
    · rw [if_pos h0]
    · rw [if_neg h0, if_neg (by omega)]

theorem Emplace_bad_alloc_keeps {α : Type} (e : Elem α) (v : Vector α) (pos : Nat) (a : Arg α)
    (w : World α) (h : (v.Emplace e pos a w).world.failed ≠ w.failed) :
    (v.Emplace e pos a w).ret = none ∧ (v.Emplace e pos a w).self = v := by
  rw [(Emplace_world e v pos a w).1] at h
  by_cases c0 : pos = v.cend
  · rw [if_pos c0] at h
    obtain ⟨h1, h2⟩ := EmplaceBack_bad_alloc_keeps e v a w h
    simp only [Vector.Emplace]
    rw [if_pos c0]
    simp only [h1, Option.map_none', true_and]
    exact h2
  · rw [if_neg c0] at h
    by_cases c1 : v.Capacity = 0
    · rw [if_pos c1] at h
      have ha := withCapacity_failed e 1 w h
      simp only [Vector.Emplace, if_neg c0, if_pos c1, ha, and_self]
    · rw [if_neg c1] at h
      by_cases c2 : v.size_ = v.Capacity
      · rw [if_pos c2] at h
        have ha := withCapacity_failed e _ w h
        simp only [Vector.Emplace, if_neg c0, if_neg c1, if_pos c2, ha, and_self]
      · rw [if_neg c2] at h
        exact absurd rfl h

theorem Insert_bad_alloc_keeps {α : Type} (e : Elem α) (v : Vector α) (pos : Nat)
    (value : ConstRef α) (w : World α) (h : (v.Insert e pos value w).world.failed ≠ w.failed) :
    (v.Insert e pos value w).ret = none ∧ (v.Insert e pos value w).self = v := by
  simp only [Vector.Insert] at h ⊢
  split_ifs at h ⊢
  · cases ht : (copy_construct e v.data_.buffer_ value w.copies).1 with
    | none =>
      simp only [ht] at h
      exact absurd rfl h
    | some x =>
      simp only [ht] at h ⊢
      exact Emplace_bad_alloc_keeps e v pos _ _ h
  · exact Emplace_bad_alloc_keeps e v pos _ w h

theorem copyAssign_bad_alloc_keeps {α : Type} (e : Elem α) (v rhs : Vector α) (w : World α)
    (h : (v.copyAssign e (some rhs) w).world.failed ≠ w.failed) :
    (v.copyAssign e (some rhs) w).ret = none ∧ (v.copyAssign e (some rhs) w).self = v := by
  rw [(copyAssign_world e v rhs w).1] at h
  by_cases c1 : rhs.size_ > v.data_.Capacity
  · rw [if_pos c1, (copyCtor_world e rhs w).1] at h
    have ha := withCapacity_failed e _ w h
    have hc : (Vector.copyCtor e rhs w).1 = none := by
      simp only [Vector.copyCtor, ha]
    simp only [Vector.copyAssign, if_pos c1, hc, and_self]
  · rw [if_neg c1] at h
    exact absurd rfl h

/-- A call during which `operator new` throws is left by the exception and leaves the
vector exactly as it was: in every member function that allocates, the allocation comes
before the first change. -/
theorem bad_alloc_keeps_vector {α : Type} (e : Elem α) (v : Vector α) (w : World α) :
    (∀ n, (v.Reserve e n w).world.failed ≠ w.failed →
        (v.Reserve e n w).ret = none ∧ (v.Reserve e n w).self = v) ∧
      (∀ n, (v.Resize e n w).world.failed ≠ w.failed →
        (v.Resize e n w).ret = none ∧ (v.Resize e n w).self = v) ∧
      (∀ a, (v.EmplaceBack e a w).world.failed ≠ w.failed →
        (v.EmplaceBack e a w).ret = none ∧ (v.EmplaceBack e a w).self = v) ∧
      (∀ value, (v.PushBack e value w).world.failed ≠ w.failed →
        (v.PushBack e value w).ret = none ∧ (v.PushBack e value w).self = v) ∧
      (∀ value, (v.PushBackMove e value w).world.failed ≠ w.failed →
        (v.PushBackMove e value w).ret = none ∧ (v.PushBackMove e value w).self = v) ∧
      (∀ pos a, (v.Emplace e pos a w).world.failed ≠ w.failed →
        (v.Emplace e pos a w).ret = none ∧ (v.Emplace e pos a w).self = v) ∧
      (∀ pos value, (v.Insert e pos value w).world.failed ≠ w.failed →
        (v.Insert e pos value w).ret = none ∧ (v.Insert e pos value w).self = v) ∧
      (∀ pos value, (v.InsertMove e pos value w).world.failed ≠ w.failed →
        (v.InsertMove e pos value w).ret = none ∧ (v.InsertMove e pos value w).self = v) ∧
      (∀ rhs, (v.copyAssign e (some rhs) w).world.failed ≠ w.failed →
        (v.copyAssign e (some rhs) w).ret = none ∧ (v.copyAssign e (some rhs) w).self = v) := by
  refine ⟨fun n => Reserve_bad_alloc_keeps e v n w, fun n => Resize_bad_alloc_keeps e v n w,
    fun a => EmplaceBack_bad_alloc_keeps e v a w, ?_, ?_,
    fun pos a => Emplace_bad_alloc_keeps e v pos a w,
    fun pos value => Insert_bad_alloc_keeps e v pos value w, ?_,
    fun rhs => copyAssign_bad_alloc_keeps e v rhs w⟩
  · intro value h
    obtain ⟨h1, h2⟩ := EmplaceBack_bad_alloc_keeps e v (.copy value) w h
    exact ⟨by simp [Vector.PushBack, h1], h2⟩
  · intro value h
    obtain ⟨h1, h2⟩ := EmplaceBack_bad_alloc_keeps e v (.move (some value)) w h
    exact ⟨by simp [Vector.PushBackMove, h1], h2⟩
  · intro pos value h
    exact Emplace_bad_alloc_keeps e v pos (.move (some value)) w h

/-! ## The model on requests that are not served -/

/-- The request of `Reserve(2 ^ 62)` on an empty `Vector<int>`: the byte count
`2 ^ 62 * 4` wraps around to 0 in `size_t`, `operator new(0)` returns a block without
room for an object, the call returns, and the vector records the capacity `2 ^ 62` over
that block.  The request is counted as wrapped, so the call is not one during which
nothing failed. -/
theorem Reserve_wrapped_request :
    (({} : Vector Nat).Reserve intElem (2 ^ 62) World.start).ret = some () ∧
      (({} : Vector Nat).Reserve intElem (2 ^ 62) World.start).self.Capacity = 2 ^ 62 ∧
      (({} : Vector Nat).Reserve intElem (2 ^ 62) World.start).self.data_.buffer_ = [] ∧
      (({} : Vector Nat).Reserve intElem (2 ^ 62) World.start).world.wrapped = 1 ∧
      ¬ (({} : Vector Nat).Reserve intElem (2 ^ 62) World.start).quiet intElem World.start := by
  refine ⟨rfl, rfl, rfl, rfl, ?_⟩
  intro h
  exact absurd h.2.2 (by decide)

/-- The request of `Reserve(2 ^ 61)` on an empty `Vector<int>` where `operator new`
refuses more than `PTRDIFF_MAX` bytes: the byte count is `2 ^ 63`, `std::bad_alloc`
propagates and the vector is as it was. -/
theorem Reserve_bad_alloc :
    (({} : Vector Nat).Reserve intElemBounded (2 ^ 61) World.start).ret = none ∧
      (({} : Vector Nat).Reserve intElemBounded (2 ^ 61) World.start).self = {} ∧
      (({} : Vector Nat).Reserve intElemBounded (2 ^ 61) World.start).world.failed = 1 := by
  refine ⟨rfl, rfl, rfl⟩

/-! ## The claims -/

/-- C1, evaluated where the code departs from it.  The program
`Vector<int> v; v.Reserve(4); v.PushBack(7); v.Resize(2);` reaches `Resize(2)` with
size 1 and capacity 4; the call returns, and afterwards `Size()` is 4, not 2, and the
elements are `7, 0, 0, 0`: `Resize` sets `size_` to `Capacity()`. -/
theorem Resize_below_capacity_fills_capacity :
    (({} : Vector Nat).Reserve intElem 4 World.start).self.PushBack intElem (.outside 7)
        (({} : Vector Nat).Reserve intElem 4 World.start).world =
      ⟨vectorOf [7] 3, World.reserved 1, some ()⟩ ∧
    ((vectorOf [7] 3).Resize intElem 2 (World.reserved 1)).ret = some () ∧
    ((vectorOf [7] 3).Resize intElem 2 (World.reserved 1)).self.Size = 4 ∧
    ((vectorOf [7] 3).Resize intElem 2 (World.reserved 1)).self.toList =
      [some 7, some 0, some 0, some 0] := by
  refine ⟨rfl, rfl, rfl, rfl⟩

/-- C2, evaluated where the code departs from it.  After
`Vector<T> v; v.Reserve(2); v.PushBack(T(1)); v.PushBack(T(2));` the vector holds `1, 2`
in a full block of two slots and no copy has been made.  With a copy constructor that
throws on its third invocation, `Insert(begin() + 1, x)` for an lvalue `x` of value 9
allocates a block of four slots, copies `x` (first copy), relocates the front part `1`
(second copy) and fails on the copy of the back part `2` (third copy).  The call
nevertheless returns the iterator `begin() + 1`, and the vector is left with `size_ = 3`,
capacity 4 and a block in which only the slot of `9` holds an object. -/
theorem Insert_swallows_failed_back_copy :
    ((({} : Vector Nat).Reserve (throwingElem 3) 2 World.start).self.PushBackMove
          (throwingElem 3) 1 (World.reserved 0)).self.PushBackMove (throwingElem 3) 2
          (World.reserved 0) =
        ⟨vectorOf [1, 2] 0, World.reserved 0, some ()⟩ ∧
      (vectorOf [1, 2] 0).Inv ∧
      ¬ (World.reserved 0).quietUntil (throwingElem 3)
          ((vectorOf [1, 2] 0).Insert (throwingElem 3) 1 (.outside 9)
            (World.reserved 0)).world.copies ∧
      ¬ ((vectorOf [1, 2] 0).Insert (throwingElem 3) 1 (.outside 9) (World.reserved 0)).quiet
          (throwingElem 3) (World.reserved 0) ∧
      ((vectorOf [1, 2] 0).Insert (throwingElem 3) 1 (.outside 9) (World.reserved 0)).ret =
        some 1 ∧
      ((vectorOf [1, 2] 0).Insert (throwingElem 3) 1 (.outside 9) (World.reserved 0)).self =
        { data_ := { buffer_ := [none, some 9, none, none], capacity_ := 4 }, size_ := 3 } := by
  have hthrow : ¬ (World.reserved 0).quietUntil (throwingElem 3)
      ((vectorOf [1, 2] 0).Insert (throwingElem 3) 1 (.outside 9)
        (World.reserved 0)).world.copies := by
    intro h
    have := h 3 (by decide) (by decide)
    simp [throwingElem] at this
  exact ⟨rfl, by decide, hthrow, fun h => hthrow h.1, by decide, by decide⟩

/-- C3.  Let the vector be well formed with elements `xs`, let `p ≤ |xs|`, and let the
call construct the value `y`.  If nothing fails during the call (no element operation
throws and the allocation, when there is one, is served), then `Emplace`,
`Insert(pos, const T&)` and `Insert(pos, T&&)` at `p` leave the elements
`xs[0..p) ++ [y] ++ xs[p..)` and the size `|xs| + 1`, and return `begin() + p`, where `y`
now is; this holds whichever branch of `Emplace` runs. -/
theorem Emplace_Insert_place_value {α : Type} (e : Elem α) (v : Vector α) (xs : List α)
    (p : Nat) (y : α) (w : World α) (hinv : v.Inv) (hxs : v.toList = xs.map some)
    (hp : p ≤ xs.length) :
    (∀ a : Arg α, a.value v.data_.buffer_ = some y → (v.Emplace e p a w).quiet e w →
        (v.Emplace e p a w).InsertedAt xs p y) ∧
      (∀ value : ConstRef α, value.read v.data_.buffer_ = some y →
        (v.Insert e p value w).quiet e w → (v.Insert e p value w).InsertedAt xs p y) ∧
      ((v.InsertMove e p y w).quiet e w → (v.InsertMove e p y w).InsertedAt xs p y) := by
  have hv := hinv.holds hxs
  refine ⟨?_, ?_, ?_⟩
  · intro a ha hq
    obtain ⟨h1, h2⟩ := Emplace_holds e v xs p a y w hv hp ha hq
    exact Holds.insertedAt hp h1 h2
  · intro value ha hq
    obtain ⟨h1, h2⟩ := Insert_holds e v xs p value y w hv hp ha hq
    exact Holds.insertedAt hp h1 h2
  · intro hq
    obtain ⟨h1, h2⟩ := InsertMove_holds e v xs p y w hv hp hq
    exact Holds.insertedAt hp h1 h2

/-- Instance of C3: `Insert(begin() + 1, 9)` into `1, 2, 3` with one spare slot. -/
theorem Emplace_Insert_place_value_witness :
    (vectorOf [1, 2, 3] 1).Inv ∧ (vectorOf [1, 2, 3] 1).toList = [1, 2, 3].map some ∧
      1 ≤ [1, 2, 3].length ∧
      ((vectorOf [1, 2, 3] 1).Insert intElem 1 (.outside 9) World.start).InsertedAt
        [1, 2, 3] 1 9 :=
  ⟨by decide, by decide, by decide,
    (Emplace_Insert_place_value intElem (vectorOf [1, 2, 3] 1) [1, 2, 3] 1 9 World.start
      (by decide) (by decide) (by decide)).2.1 (.outside 9) rfl
      (quiet_of_served intElem (fun _ => rfl) _ _ ⟨rfl, rfl⟩)⟩

/-- C4.  For a well-formed vector with elements `xs` and a position `p < |xs|`, `Erase`
at `p` leaves `xs` without its element at index `p`, the others in order, the size
`|xs| - 1` and the capacity unchanged.  It returns `begin() + p`; there the element that
followed the erased one is found, and the iterator is `end()` when `p` was the last
index. -/
theorem Erase_removes_element {α : Type} (e : Elem α) (v : Vector α) (xs : List α) (p : Nat)
    (hinv : v.Inv) (hxs : v.toList = xs.map some) (hp : p < xs.length) :
    (v.Erase e p).1.Inv ∧ (v.Erase e p).1.toList = (xs.eraseIdx p).map some ∧
      (v.Erase e p).1.Size = xs.length - 1 ∧ (v.Erase e p).1.Capacity = v.Capacity ∧
      (v.Erase e p).2 = (v.Erase e p).1.cbegin + p ∧
      (∀ h : p + 1 < xs.length, (v.Erase e p).1.index (v.Erase e p).2 = some xs[p + 1]) ∧
      (p + 1 = xs.length → (v.Erase e p).2 = (v.Erase e p).1.cend) := by
  have hv := hinv.holds hxs
  obtain ⟨h1, h2, h3⟩ := Erase_holds e v xs p hv hp
  have hsz : (v.Erase e p).1.Size = xs.length - 1 := by
    rw [Holds.size_eq h1, List.length_eraseIdx, if_pos hp]
  refine ⟨h1.inv, h1.toList_eq, hsz, h2, ?_, ?_, ?_⟩
  · simpa [Vector.cbegin] using h3
  · intro h
    rw [h3]
    simp only [Vector.index, RawMemory.index]
    rw [h1.2.2.2 p, List.getElem?_eraseIdx, if_neg (by omega), List.getElem?_eq_getElem h]
  · intro h
    rw [h3]
    simp only [Vector.cend]
    have := hsz
    simp only [Vector.Size] at this
    omega

/-- Instance of C4: erasing the middle element of `1, 2, 3`. -/
theorem Erase_removes_element_witness :
    (vectorOf [1, 2, 3] 1).Inv ∧ 1 < [1, 2, 3].length ∧
      ((vectorOf [1, 2, 3] 1).Erase intElem 1).1.toList = ([1, 2, 3].eraseIdx 1).map some :=
  ⟨by decide, by decide,
    (Erase_removes_element intElem (vectorOf [1, 2, 3] 1) [1, 2, 3] 1 (by decide) (by decide)
      (by decide)).2.1⟩

/-- C5.  For a well-formed vector with elements `xs` (of any length, full or not), a
position `p ≤ |xs|` and a value `y`: when nothing fails during `Insert` (no element
operation throws and the allocation, when there is one, is served),
the call returns an iterator, and `Erase` at that iterator leaves a well-formed vector
with the size `|xs|` and the elements `xs` in their order.  This holds for both overloads
of `Insert`. -/
theorem Erase_after_Insert_restores {α : Type} (e : Elem α) (v : Vector α) (xs : List α)
    (p : Nat) (y : α) (w : World α) (hinv : v.Inv) (hxs : v.toList = xs.map some)
    (hp : p ≤ xs.length) :
    (∀ value : ConstRef α, value.read v.data_.buffer_ = some y →
        (v.Insert e p value w).quiet e w →
        ∃ it, (v.Insert e p value w).ret = some it ∧
          ((v.Insert e p value w).self.Erase e it).1.Restored xs) ∧
      ((v.InsertMove e p y w).quiet e w →
        ∃ it, (v.InsertMove e p y w).ret = some it ∧
          ((v.InsertMove e p y w).self.Erase e it).1.Restored xs) := by
  have hv := hinv.holds hxs
  have hlt : p < (xs.take p ++ [y] ++ xs.drop p).length := by
    rw [length_insert xs p hp]
    omega
  refine ⟨?_, ?_⟩
  · intro value ha hq
    obtain ⟨h1, h2⟩ := Insert_holds e v xs p value y w hv hp ha hq
    refine ⟨p, h2, ?_⟩
    have h3 := (Erase_holds e _ _ p h1 hlt).1
    rw [eraseIdx_insert xs p hp] at h3
    exact Holds.restored h3
  · intro hq
    obtain ⟨h1, h2⟩ := InsertMove_holds e v xs p y w hv hp hq
    refine ⟨p, h2, ?_⟩
    have h3 := (Erase_holds e _ _ p h1 hlt).1
    rw [eraseIdx_insert xs p hp] at h3
    exact Holds.restored h3

/-- Instance of C5: insert at the front of a full one-element vector, then erase. -/
theorem Erase_after_Insert_restores_witness :
    (vectorOf [5] 0).Inv ∧ (vectorOf [5] 0).toList = [5].map some ∧ 0 ≤ [5].length ∧
      ∃ it, ((vectorOf [5] 0).InsertMove intElem 0 9 World.start).ret = some it ∧
        (((vectorOf [5] 0).InsertMove intElem 0 9 World.start).self.Erase intElem it).1.Restored
          [5] :=
  ⟨by decide, by decide, by decide,
    (Erase_after_Insert_restores intElem (vectorOf [5] 0) [5] 0 9 World.start (by decide)
      (by decide) (by decide)).2 (quiet_of_served intElem (fun _ => rfl) _ _ ⟨rfl, rfl⟩)⟩

/-- C6.  Starting from a default-constructed vector, the calls `PushBack(v_1)`, ...,
`PushBack(v_N)` (any `N ≥ 0`), each through either overload: `PushBack(const T&)` on an
object outside the vector or on an element of the vector, or `PushBack(T&&)`.  When
nothing fails during the run (no copy throws and every allocation is served), all the
calls return; afterwards `Size()` is `N`, iterating from `begin()` to `end()` yields the
values passed, `v_1, ..., v_N`, in push order, and so does indexing with
`0, ..., N - 1`. -/
theorem PushBack_sequence_keeps_order {α : Type} (e : Elem α) (ps : List (Push α))
    (vs : List α) (w : World α) (hvs : passedValues ps [] = some vs)
    (hq : (pushBackAll e ps {} w).quiet e w) :
    (pushBackAll e ps {} w).ret = some () ∧ vs.length = ps.length ∧
      (pushBackAll e ps {} w).self.Size = ps.length ∧
      (pushBackAll e ps {} w).self.toList = vs.map some ∧
      ∀ i, ∀ h : i < vs.length, (pushBackAll e ps {} w).self.index i = some vs[i] := by
  obtain ⟨h1, h2, h3⟩ := pushBackAll_holds e ps {} [] vs w default_holds hvs hq
  rw [List.nil_append] at h2
  refine ⟨h1, h3, ?_, h2.toList_eq, ?_⟩
  · rw [Holds.size_eq h2, h3]
  · intro i h
    simp only [Vector.index, RawMemory.index]
    rw [h2.2.2.2 i, List.getElem?_eq_getElem h]

/-- Instance of C6: `PushBack(T&&)` of 1, `PushBack(const T&)` of an object of value 2,
`PushBack(const T&)` of the vector's own first element and `PushBack(T&&)` of 4, on
`int`. -/
theorem PushBack_sequence_keeps_order_witness :
    passedValues [Push.byMove 1, .byCopy (.outside 2), .byCopy (.element 0), .byMove 4] [] =
        some [1, 2, 1, 4] ∧
      (pushBackAll intElem [.byMove 1, .byCopy (.outside 2), .byCopy (.element 0), .byMove 4]
        {} World.start).quiet intElem World.start ∧
      (pushBackAll intElem [.byMove 1, .byCopy (.outside 2), .byCopy (.element 0), .byMove 4]
        {} World.start).self.toList = [some 1, some 2, some 1, some 4] :=
  ⟨rfl, quiet_of_served intElem (fun _ => rfl) _ _ ⟨rfl, rfl⟩,
    (PushBack_sequence_keeps_order intElem
      [.byMove 1, .byCopy (.outside 2), .byCopy (.element 0), .byMove 4] [1, 2, 1, 4]
      World.start rfl (quiet_of_served intElem (fun _ => rfl) _ _ ⟨rfl, rfl⟩)).2.2.2.1⟩

/-- C8.  Whatever the element type, the vector and the copy count: if a copy made during
`Reserve(n)`, or during `EmplaceBack` or either `PushBack` on any of their branches,
throws, or the allocation of the call throws, then the exception propagates to the caller
and the vector is exactly what it was before the call, with the same size, capacity and
elements.  This covers the element types whose copy constructor throws on its `k`-th
invocation and whose relocation copies. -/
theorem failed_Reserve_EmplaceBack_roll_back {α : Type} (e : Elem α) (v : Vector α)
    (w : World α) :
    (∀ n, ¬ (v.Reserve e n w).nothingThrew e w → (v.Reserve e n w).RolledBack v) ∧
      (∀ a, ¬ (v.EmplaceBack e a w).nothingThrew e w → (v.EmplaceBack e a w).RolledBack v) ∧
      (∀ value, ¬ (v.PushBack e value w).nothingThrew e w →
        (v.PushBack e value w).RolledBack v) ∧
      (∀ value, ¬ (v.PushBackMove e value w).nothingThrew e w →
        (v.PushBackMove e value w).RolledBack v) := by
  have hR : ∀ n, ¬ (v.Reserve e n w).nothingThrew e w → (v.Reserve e n w).RolledBack v := by
    intro n hq
    have h1 : (v.Reserve e n w).ret = none := by
      cases hr : (v.Reserve e n w).ret with
      | none => rfl
      | some u => exact absurd ((Reserve_ret_iff e v n w).mp hr) hq
    exact rolledBack_of h1 (Reserve_thrown e v n w h1)
  have hE : ∀ a, ¬ (v.EmplaceBack e a w).nothingThrew e w →
      (v.EmplaceBack e a w).RolledBack v := by
    intro a hq
    have h1 : (v.EmplaceBack e a w).ret = none := by
      by_contra hne
      exact hq ((EmplaceBack_ret_iff e v a w).mp hne)
    exact rolledBack_of h1 (EmplaceBack_thrown e v a w h1)
  refine ⟨hR, hE, ?_, ?_⟩
  · intro value hq
    obtain ⟨h1, h2, _⟩ := hE (.copy value) hq
    exact rolledBack_of (by simp [Vector.PushBack, h1]) h2
  · intro value hq
    obtain ⟨h1, h2, _⟩ := hE (.move (some value)) hq
    exact rolledBack_of (by simp [Vector.PushBackMove, h1]) h2

/-- Instances of C8: `Reserve(5)` on the full vector `1, 2` when the second copy throws,
and `Reserve(2 ^ 61)` on an empty `Vector<int>` when `operator new` throws. -/
theorem failed_Reserve_EmplaceBack_roll_back_witness :
    (¬ World.quietUntil (throwingElem 2) World.start
          ((vectorOf [1, 2] 0).Reserve (throwingElem 2) 5 World.start).world.copies ∧
        ((vectorOf [1, 2] 0).Reserve (throwingElem 2) 5 World.start).RolledBack
          (vectorOf [1, 2] 0)) ∧
      (({} : Vector Nat).Reserve intElemBounded (2 ^ 61) World.start).world.failed ≠
          World.start.failed ∧
        (({} : Vector Nat).Reserve intElemBounded (2 ^ 61) World.start).RolledBack {} :=
  have hq : ¬ World.quietUntil (throwingElem 2) World.start
      ((vectorOf [1, 2] 0).Reserve (throwingElem 2) 5 World.start).world.copies := fun h =>
    Bool.noConfusion (h 2 (by decide) (by decide))
  have hf : (({} : Vector Nat).Reserve intElemBounded (2 ^ 61) World.start).world.failed ≠
      World.start.failed := by decide
  ⟨⟨hq, (failed_Reserve_EmplaceBack_roll_back (throwingElem 2) (vectorOf [1, 2] 0)
      World.start).1 5 (fun h => hq h.1)⟩,
    hf, (failed_Reserve_EmplaceBack_roll_back intElemBounded {} World.start).1 (2 ^ 61)
      (fun h => hf h.2)⟩

/-- C10.  For a vector with `Size() ≤ Capacity()` and capacity `c`, after a call of
`EmplaceBack` or of either `PushBack` that returned, the capacity is `max(1, 2 * c)` if
`Size() == c` held before the call and `c` otherwise, and `Size()` has grown by exactly
one. -/
theorem PushBack_capacity_growth {α : Type} (e : Elem α) (v : Vector α) (w : World α)
    (hs : v.Size ≤ v.Capacity) :
    (∀ a, (v.EmplaceBack e a w).ret ≠ none →
        (v.EmplaceBack e a w).self.Capacity =
            (if v.Size = v.Capacity then max 1 (2 * v.Capacity) else v.Capacity) ∧
          (v.EmplaceBack e a w).self.Size = v.Size + 1) ∧
      (∀ value, (v.PushBack e value w).ret ≠ none →
        (v.PushBack e value w).self.Capacity =
            (if v.Size = v.Capacity then max 1 (2 * v.Capacity) else v.Capacity) ∧
          (v.PushBack e value w).self.Size = v.Size + 1) ∧
      (∀ value, (v.PushBackMove e value w).ret ≠ none →
        (v.PushBackMove e value w).self.Capacity =
            (if v.Size = v.Capacity then max 1 (2 * v.Capacity) else v.Capacity) ∧
          (v.PushBackMove e value w).self.Size = v.Size + 1) := by
  refine ⟨fun a hr => EmplaceBack_capacity e v a w hs hr, ?_, ?_⟩
  · intro value hr
    apply EmplaceBack_capacity e v (.copy value) w hs
    intro h
    exact hr (by simp [Vector.PushBack, h])
  · intro value hr
    apply EmplaceBack_capacity e v (.move (some value)) w hs
    intro h
    exact hr (by simp [Vector.PushBackMove, h])

/-- Instance of C10: the first `PushBack` on an empty vector gives capacity 1, and a
`PushBack` on a full vector of two elements gives capacity 4. -/
theorem PushBack_capacity_growth_witness :
    (vectorOf [1, 2] 0).Size ≤ (vectorOf [1, 2] 0).Capacity ∧
      ((vectorOf [1, 2] 0).PushBackMove intElem 3 World.start).self.Capacity =
          (if (vectorOf [1, 2] 0).Size = (vectorOf [1, 2] 0).Capacity then
            max 1 (2 * (vectorOf [1, 2] 0).Capacity) else (vectorOf [1, 2] 0).Capacity) ∧
        ((vectorOf [1, 2] 0).PushBackMove intElem 3 World.start).self.Size =
          (vectorOf [1, 2] 0).Size + 1 :=
  ⟨by decide,
    (PushBack_capacity_growth intElem (vectorOf [1, 2] 0) World.start (by decide)).2.2 3
      (by decide)⟩

/-- C11.  Starting from a default-constructed vector, a run of `N` `PushBack` calls, each
through either overload, during which nothing fails (no copy throws and every allocation
is served): for `N = 0` there is no reallocation and the capacity stays 0; for `N ≥ 1`
there are at most `⌈log₂ N⌉ + 1` reallocations and the final capacity is
`2 ^ ⌈log₂ N⌉`, the least power of two that is at least `N`.  Moreover any single call of
`PushBack(const T&)`, of `PushBack(T&&)` or of `EmplaceBack` that returns, on a vector
with `Size() ≤ Capacity()`, either does not reallocate and keeps the capacity, or
reallocates once to a capacity that is larger and at least twice the old one. -/
theorem PushBack_run_growth {α : Type} (e : Elem α) (ps : List (Push α)) (w : World α)
    (hq : (pushBackAll e ps {} w).quiet e w) :
    (ps.length = 0 → (pushBackAll e ps {} w).reallocations w = 0 ∧
        (pushBackAll e ps {} w).self.Capacity = 0) ∧
      (1 ≤ ps.length →
        (pushBackAll e ps {} w).reallocations w ≤ Nat.clog 2 ps.length + 1 ∧
          (pushBackAll e ps {} w).self.Capacity = 2 ^ Nat.clog 2 ps.length ∧
          ps.length ≤ (pushBackAll e ps {} w).self.Capacity ∧
          ∀ j, ps.length ≤ 2 ^ j → (pushBackAll e ps {} w).self.Capacity ≤ 2 ^ j) ∧
      (∀ (u : Vector α) (value : ConstRef α) (w2 : World α), u.Size ≤ u.Capacity →
        (u.PushBack e value w2).ret ≠ none →
        ((u.PushBack e value w2).reallocations w2 = 0 ∧
            (u.PushBack e value w2).self.Capacity = u.Capacity) ∨
          ((u.PushBack e value w2).reallocations w2 = 1 ∧
            2 * u.Capacity ≤ (u.PushBack e value w2).self.Capacity ∧
            u.Capacity < (u.PushBack e value w2).self.Capacity)) ∧
      (∀ (u : Vector α) (value : α) (w2 : World α), u.Size ≤ u.Capacity →
        (u.PushBackMove e value w2).ret ≠ none →
        ((u.PushBackMove e value w2).reallocations w2 = 0 ∧
            (u.PushBackMove e value w2).self.Capacity = u.Capacity) ∨
          ((u.PushBackMove e value w2).reallocations w2 = 1 ∧
            2 * u.Capacity ≤ (u.PushBackMove e value w2).self.Capacity ∧
            u.Capacity < (u.PushBackMove e value w2).self.Capacity)) ∧
      (∀ (u : Vector α) (a : Arg α) (w2 : World α), u.Size ≤ u.Capacity →
        (u.EmplaceBack e a w2).ret ≠ none →
        ((u.EmplaceBack e a w2).reallocations w2 = 0 ∧
            (u.EmplaceBack e a w2).self.Capacity = u.Capacity) ∨
          ((u.EmplaceBack e a w2).reallocations w2 = 1 ∧
            2 * u.Capacity ≤ (u.EmplaceBack e a w2).self.Capacity ∧
            u.Capacity < (u.EmplaceBack e a w2).self.Capacity)) := by
  obtain ⟨d, hd1, hd2⟩ := pushBackAll_growth e ps {} w 0 hq (Or.inl ⟨rfl, rfl, rfl⟩)
  have hz : ({} : Vector α).size_ = 0 := rfl
  simp only [hz, Nat.zero_add] at hd2
  have hE : ∀ (u : Vector α) (a : Arg α) (w2 : World α), u.Size ≤ u.Capacity →
      (u.EmplaceBack e a w2).ret ≠ none →
      ((u.EmplaceBack e a w2).reallocations w2 = 0 ∧
          (u.EmplaceBack e a w2).self.Capacity = u.Capacity) ∨
        ((u.EmplaceBack e a w2).reallocations w2 = 1 ∧
          2 * u.Capacity ≤ (u.EmplaceBack e a w2).self.Capacity ∧
          u.Capacity < (u.EmplaceBack e a w2).self.Capacity) := by
    intro u a w2 hs hne
    simp only [Vector.Size, Vector.Capacity, RawMemory.Capacity] at hs
    rcases EmplaceBack_step e u a w2 hs hne with ⟨s1, s2, s3⟩ | ⟨s1, s2, s3⟩
    · left
      simp only [Outcome.reallocations, Vector.Capacity, RawMemory.Capacity]
      rw [s2, s3]
      exact ⟨Nat.sub_self _, rfl⟩
    · right
      simp only [Outcome.reallocations, Vector.Capacity, RawMemory.Capacity]
      rw [s2, s3]
      refine ⟨by omega, by omega, by omega⟩
  refine ⟨?_, ?_, ?_, ?_, hE⟩
  · intro h0
    rcases hd2 with hd2 | hd2
    · refine ⟨?_, hd2.2.1⟩
      simp only [Outcome.reallocations]
      omega
    · omega
  · intro h1
    rcases hd2 with hd2 | ⟨_, g2, g3, g4, g5⟩
    · omega
    · simp only [Vector.Capacity, RawMemory.Capacity]
      rw [g4] at g2 g3
      have hc := clog_of_bounds ps.length (d - 1) g2 g3
      refine ⟨?_, ?_, ?_, ?_⟩
      · simp only [Outcome.reallocations]
        omega
      · rw [g4, hc]
      · rw [g4]
        exact g2
      · intro j hj
        rw [g4, ← hc]
        exact Nat.pow_le_pow_right (by decide) ((Nat.le_pow_iff_clog_le (by decide)).mp hj)
  · intro u value w2 hs hr
    apply hE u (.copy value) w2 hs
    intro h
    exact hr (by simp [Vector.PushBack, h])
  · intro u value w2 hs hr
    apply hE u (.move (some value)) w2 hs
    intro h
    exact hr (by simp [Vector.PushBackMove, h])

/-- Instance of C11: five pushes of `int` values, through both overloads, end with
capacity `2 ^ ⌈log₂ 5⌉`. -/
theorem PushBack_run_growth_witness :
    (pushBackAll intElem
        [.byMove 1, .byCopy (.outside 2), .byMove 3, .byCopy (.element 0), .byMove 5] {}
        World.start).quiet intElem World.start ∧
      (pushBackAll intElem
        [.byMove 1, .byCopy (.outside 2), .byMove 3, .byCopy (.element 0), .byMove 5] {}
        World.start).self.Capacity = 8 ∧
      (pushBackAll intElem
        [.byMove 1, .byCopy (.outside 2), .byMove 3, .byCopy (.element 0), .byMove 5] {}
        World.start).reallocations World.start = 4 ∧
      (pushBackAll intElem
        [.byMove 1, .byCopy (.outside 2), .byMove 3, .byCopy (.element 0), .byMove 5] {}
        World.start).self.Capacity =
          2 ^ Nat.clog 2
            [Push.byMove 1, .byCopy (.outside 2), .byMove 3, .byCopy (.element 0),
              .byMove 5].length :=
  ⟨quiet_of_served intElem (fun _ => rfl) _ _ ⟨rfl, rfl⟩, by decide, by decide,
    ((PushBack_run_growth intElem
      [.byMove 1, .byCopy (.outside 2), .byMove 3, .byCopy (.element 0), .byMove 5] World.start
      (quiet_of_served intElem (fun _ => rfl) _ _ ⟨rfl, rfl⟩)).2.1 (by decide)).2.1⟩

/-- C12.  For well-formed vectors `a` (target) and `b` (source, passed by `const&` and
so not changed), a copy assignment `a = b` during which nothing fails (no copy throws and the
allocation, when there is one, is served) returns; afterwards
`a` is well formed with the size and the element sequence of `b`, and its capacity is
`b.Size()` if that exceeded the old capacity of `a` and the old capacity otherwise.  The
self-assignment `a = a` returns the vector and the world as they were. -/
theorem copyAssign_copies_source {α : Type} (e : Elem α) (a b : Vector α) (w : World α)
    (ha : a.Inv) (hb : b.Inv) :
    ((a.copyAssign e (some b) w).quiet e w →
        (a.copyAssign e (some b) w).ret = some () ∧ (a.copyAssign e (some b) w).self.Inv ∧
          (a.copyAssign e (some b) w).self.Size = b.Size ∧
          (a.copyAssign e (some b) w).self.toList = b.toList ∧
          (a.copyAssign e (some b) w).self.Capacity =
            (if b.Size > a.Capacity then b.Size else a.Capacity)) ∧
      a.copyAssign e none w = ⟨a, w, some ()⟩ := by
  refine ⟨?_, rfl⟩
  intro hq
  obtain ⟨xs, hx⟩ := ha.exists_holds
  obtain ⟨ys, hy⟩ := hb.exists_holds
  have hr := copyAssign_ret_of_quiet e a b w (quiet_nothingThrew hq)
  have h1 := copyAssign_holds e a b xs ys w hx hy hq
  refine ⟨hr, h1.inv, ?_, ?_, copyAssign_capacity e a b w hr⟩
  · rw [Holds.size_eq h1, Holds.size_eq hy]
  · rw [h1.toList_eq, hy.toList_eq]

/-- Instance of C12: assigning `4, 5, 6` to a vector `1` of capacity 2. -/
theorem copyAssign_copies_source_witness :
    (vectorOf [1] 1).Inv ∧ (vectorOf [4, 5, 6] 0).Inv ∧
      ((vectorOf [1] 1).copyAssign intElem (some (vectorOf [4, 5, 6] 0)) World.start).self.toList
        = (vectorOf [4, 5, 6] 0).toList :=
  ⟨by decide, by decide,
    ((copyAssign_copies_source intElem (vectorOf [1] 1) (vectorOf [4, 5, 6] 0) World.start
      (by decide) (by decide)).1 (quiet_of_served intElem (fun _ => rfl) _ _ ⟨rfl, rfl⟩)).2.2.2.1⟩

/-- C13.  Move-constructing a vector from `s` gives the new vector the size, the
capacity, the block and so the element sequence that `s` had, and leaves `s` as a
default-constructed vector: `Size() == 0`, `Capacity() == 0`, no block. -/
theorem moveCtor_takes_storage {α : Type} (s : Vector α) :
    (Vector.moveCtor s).1.Size = s.Size ∧ (Vector.moveCtor s).1.Capacity = s.Capacity ∧
      (Vector.moveCtor s).1.toList = s.toList ∧
      (Vector.moveCtor s).1.data_.buffer_ = s.data_.buffer_ ∧
      (Vector.moveCtor s).2.Size = 0 ∧ (Vector.moveCtor s).2.Capacity = 0 ∧
      (Vector.moveCtor s).2 = {} :=
  ⟨rfl, rfl, rfl, rfl, rfl, rfl, rfl⟩

/-- C14 as stated fails for the move assignment.  `RawMemory<int> a(2), b(3);` gives two
objects with blocks of 2 and of 3 slots; the assignment `a = std::move(b)` leaves the
source `b` with the block of 2 slots and the capacity 2, not in the null state. -/
theorem RawMemory_moveAssign_source_keeps_block :
    (RawMemory.withCapacity intElem 2 World.start).1 =
        some { buffer_ := [none, none], capacity_ := 2 } ∧
      (RawMemory.withCapacity intElem 3 (RawMemory.withCapacity intElem 2 World.start).2).1 =
        some { buffer_ := [none, none, none], capacity_ := 3 } ∧
      (({ buffer_ := [none, none], capacity_ := 2 } : RawMemory Nat).moveAssign
          { buffer_ := [none, none, none], capacity_ := 3 }).2 =
        { buffer_ := [none, none], capacity_ := 2 } ∧
      ¬ (({ buffer_ := [none, none], capacity_ := 2 } : RawMemory Nat).moveAssign
          { buffer_ := [none, none, none], capacity_ := 3 }).2.IsNull := by
  refine ⟨rfl, rfl, rfl, ?_⟩
  intro h
  exact absurd h.2 (by decide)

/-- C14, amended.  Move construction and move assignment both give the destination the
pointer and the capacity of the source.  Move construction leaves the source in the null
state.  Move assignment is a swap: the source is left with the pointer and the capacity
the destination had, which is the null state exactly when the destination was null. -/
theorem RawMemory_move_transfers {α : Type} (m src : RawMemory α) :
    (RawMemory.moveCtor src).1.buffer_ = src.buffer_ ∧
      (RawMemory.moveCtor src).1.capacity_ = src.capacity_ ∧
      (RawMemory.moveCtor src).2.IsNull ∧
      (m.moveAssign src).1.buffer_ = src.buffer_ ∧
      (m.moveAssign src).1.capacity_ = src.capacity_ ∧
      (m.moveAssign src).2.buffer_ = m.buffer_ ∧
      (m.moveAssign src).2.capacity_ = m.capacity_ ∧
      ((m.moveAssign src).2.IsNull ↔ m.IsNull) :=
  ⟨rfl, rfl, ⟨rfl, rfl⟩, rfl, rfl, rfl, rfl, Iff.rfl⟩

/-- C15, evaluated where the code departs from it.  After
`Vector<T> v; v.Reserve(2); v.PushBack(T(1)); v.PushBack(T(2));` the vector is full with
`1, 2` and no copy has been made.  With a copy constructor that throws on its second
invocation, `PushBack(x)` for an lvalue `x` of value 9 allocates a block of 4 slots,
copies `x` into slot 2 (first copy) and fails on the relocation of `1` (second copy).  The
exception propagates with the vector unchanged, and the new block is given back to the
allocator while slot 2 still holds the live copy of `x`, which is never destroyed. -/
theorem EmplaceBack_releases_live_element :
    ((({} : Vector Nat).Reserve (throwingElem 2) 2 World.start).self.PushBackMove
          (throwingElem 2) 1 (World.reserved 0)).self.PushBackMove (throwingElem 2) 2
          (World.reserved 0) =
        ⟨vectorOf [1, 2] 0, World.reserved 0, some ()⟩ ∧
      ((vectorOf [1, 2] 0).PushBack (throwingElem 2) (.outside 9) (World.reserved 0)).ret =
        none ∧
      ((vectorOf [1, 2] 0).PushBack (throwingElem 2) (.outside 9) (World.reserved 0)).self =
        vectorOf [1, 2] 0 ∧
      ((vectorOf [1, 2] 0).PushBack (throwingElem 2) (.outside 9)
          (World.reserved 0)).world.released =
        [[], [none, none, some 9, none]] ∧
      ¬ World.releasedClean (World.reserved 0)
        ((vectorOf [1, 2] 0).PushBack (throwingElem 2) (.outside 9) (World.reserved 0)).world := by
  refine ⟨rfl, rfl, rfl, rfl, ?_⟩
  intro h
  have h1 := h [none, none, some 9, none] (by decide) (some 9) (by decide)
  exact Option.noConfusion h1

/-- C16.  The scenario of the specification on `int`: after `PushBack(1)`, `PushBack(2)`,
`PushBack(3)` on an empty vector the size is 3, the capacity is at least 3 and the
contents are `1, 2, 3`; `Insert(begin() + 1, 9)` gives `1, 9, 2, 3`; `Erase(begin())`
gives `9, 2, 3`; `Resize(1)` gives `9`; `Resize(4)` gives size 4 and `9, 0, 0, 0`. -/
theorem scenario_on_int :
    scenarioPushed.self.Size = 3 ∧ 3 ≤ scenarioPushed.self.Capacity ∧
      scenarioPushed.self.toList = [some 1, some 2, some 3] ∧
      scenarioInserted.self.toList = [some 1, some 9, some 2, some 3] ∧
      scenarioErased.1.toList = [some 9, some 2, some 3] ∧
      scenarioShrunk.self.toList = [some 9] ∧
      scenarioGrown.self.Size = 4 ∧
      scenarioGrown.self.toList = [some 9, some 0, some 0, some 0] := by
  decide

/-- C17.  Let the vector be well formed and non-empty with elements `xs`, let `i < |xs|`
and `p ≤ |xs|`.  `Insert(pos, value)` at `p`, where `value` is a reference to the
vector's own element `i`, during which nothing fails (no copy throws and the allocation,
when there is one, is served), inserts the value `xs[i]` had
before the call: the elements become `xs[0..p) ++ [xs[i]] ++ xs[p..)`.  This holds when
the call reallocates and when it shifts in place. -/
theorem Insert_of_own_element {α : Type} (e : Elem α) (v : Vector α) (xs : List α)
    (p i : Nat) (w : World α) (hinv : v.Inv) (hxs : v.toList = xs.map some)
    (hi : i < xs.length) (hp : p ≤ xs.length)
    (hq : (v.Insert e p (.element i) w).quiet e w) :
    (v.Insert e p (.element i) w).InsertedAt xs p xs[i] := by
  have hv := hinv.holds hxs
  have hread : (ConstRef.element i).read v.data_.buffer_ = some xs[i] := by
    simp only [ConstRef.read]
    rw [hv.2.2.2 i, List.getElem?_eq_getElem hi]
  obtain ⟨h1, h2⟩ := Insert_holds e v xs p (.element i) xs[i] w hv hp hread hq
  exact Holds.insertedAt hp h1 h2

/-- Instance of C17: inserting a reference to the last element at position 1, into a
full vector (reallocation) and into one with a spare slot (shift in place). -/
theorem Insert_of_own_element_witness :
    ((vectorOf [1, 2, 3] 0).Insert intElem 1 (.element 2) World.start).InsertedAt [1, 2, 3] 1 3 ∧
      ((vectorOf [1, 2, 3] 1).Insert intElem 1 (.element 2) World.start).InsertedAt
        [1, 2, 3] 1 3 :=
  ⟨Insert_of_own_element intElem (vectorOf [1, 2, 3] 0) [1, 2, 3] 1 2 World.start (by decide)
      (by decide) (by decide) (by decide) (quiet_of_served intElem (fun _ => rfl) _ _ ⟨rfl, rfl⟩),
    Insert_of_own_element intElem (vectorOf [1, 2, 3] 1) [1, 2, 3] 1 2 World.start (by decide)
      (by decide) (by decide) (by decide) (quiet_of_served intElem (fun _ => rfl) _ _ ⟨rfl, rfl⟩)⟩

/-- C18.  For a well-formed vector with elements `xs` and `n ≤ |xs|`, `Resize(n)` returns
and leaves the first `n` elements of `xs`, `Size() == n` and the capacity unchanged; for
`n == Size()` the vector and the world are returned exactly as they were. -/
theorem Resize_keeps_front {α : Type} (e : Elem α) (v : Vector α) (xs : List α) (n : Nat)
    (w : World α) (hinv : v.Inv) (hxs : v.toList = xs.map some) (hn : n ≤ xs.length) :
    (v.Resize e n w).ret = some () ∧ (v.Resize e n w).self.toList = (xs.take n).map some ∧
      (v.Resize e n w).self.Size = n ∧ (v.Resize e n w).self.Capacity = v.Capacity ∧
      (v.Resize e n w).self.Inv ∧ (n = v.Size → v.Resize e n w = ⟨v, w, some ()⟩) := by
  have hv := hinv.holds hxs
  have hsz := Holds.size_eq hv
  rcases Nat.lt_or_ge n xs.length with hlt | hge
  · obtain ⟨h1, h2, h3⟩ := Resize_shrink e v xs n w hv hlt
    refine ⟨h3, h1.toList_eq, ?_, h2, h1.inv, fun h => Resize_same e v n w h⟩
    rw [Holds.size_eq h1, List.length_take]
    omega
  · have heq : n = v.Size := by omega
    rw [Resize_same e v n w heq]
    refine ⟨rfl, ?_, heq.symm, rfl, hinv, fun _ => rfl⟩
    rw [List.take_of_length_le hge]
    exact hxs

/-- Instance of C18: `Resize(1)` on `9, 2, 3` with one spare slot. -/
theorem Resize_keeps_front_witness :
    (vectorOf [9, 2, 3] 1).Inv ∧ 1 ≤ [9, 2, 3].length ∧
      ((vectorOf [9, 2, 3] 1).Resize intElem 1 World.start).self.toList =
        ([9, 2, 3].take 1).map some :=
  ⟨by decide, by decide,
    (Resize_keeps_front intElem (vectorOf [9, 2, 3] 1) [9, 2, 3] 1 World.start (by decide)
      (by decide) (by decide)).2.1⟩

/-- C19.  In `Emplace`, the branch for `pos != cend()` with `Capacity() == 0` cannot be
taken: for a vector with `Size() ≤ Capacity()` and a position in `[begin(), end()]`,
capacity 0 forces size 0 and `pos == cend()`, and the call is the one through
`EmplaceBack`. -/
theorem Emplace_without_storage_appends {α : Type} (e : Elem α) (v : Vector α) (pos : Nat)
    (a : Arg α) (w : World α) (hs : v.Size ≤ v.Capacity) (hb : v.cbegin ≤ pos)
    (hp : pos ≤ v.cend) (hc : v.Capacity = 0) :
    v.Size = 0 ∧ pos = v.cend ∧ ¬ (pos ≠ v.cend ∧ v.Capacity = 0) ∧
      v.Emplace e pos a w =
        ⟨(v.EmplaceBack e a w).self, (v.EmplaceBack e a w).world,
          (v.EmplaceBack e a w).ret.map fun _ => (v.EmplaceBack e a w).self.cbegin + pos⟩ := by
  have h0 : v.Size = 0 := by omega
  have hend : pos = v.cend := by
    simp only [Vector.cend, Vector.Size] at hp h0 ⊢
    omega
  refine ⟨h0, hend, fun h => h.1 hend, ?_⟩
  simp only [Vector.Emplace, Vector.cbegin, Nat.sub_zero]
  rw [if_pos hend]

/-- Instance of C19: `Emplace(begin(), 7)` on a default-constructed vector. -/
theorem Emplace_without_storage_appends_witness :
    ({} : Vector Nat).Size ≤ ({} : Vector Nat).Capacity ∧ ({} : Vector Nat).Capacity = 0 ∧
      (({} : Vector Nat).Emplace intElem 0 (.move (some 7)) World.start).self.toList =
        [some 7] ∧
      ({} : Vector Nat).Emplace intElem 0 (.move (some 7)) World.start =
        ⟨(({} : Vector Nat).EmplaceBack intElem (.move (some 7)) World.start).self,
          (({} : Vector Nat).EmplaceBack intElem (.move (some 7)) World.start).world,
          (({} : Vector Nat).EmplaceBack intElem (.move (some 7)) World.start).ret.map fun _ =>
            (({} : Vector Nat).EmplaceBack intElem (.move (some 7)) World.start).self.cbegin
              + 0⟩ :=
  ⟨by decide, by decide, by decide,
    (Emplace_without_storage_appends intElem ({} : Vector Nat) 0 (.move (some 7)) World.start
      (by decide) (by decide) (by decide) (by decide)).2.2.2⟩

/-- C20.  No call of `Reserve`, `Resize`, `EmplaceBack`, `PushBack`, `PopBack`, `Emplace`,
`Insert`, `Erase` or the copy assignment lowers the capacity: whatever the vector, the
arguments and the element type, and whether the call returns or is left by an exception,
`Capacity()` after the call is at least `Capacity()` before it. -/
theorem capacity_never_shrinks {α : Type} (e : Elem α) (v : Vector α) (w : World α) :
    (∀ n, v.Capacity ≤ (v.Reserve e n w).self.Capacity) ∧
      (∀ n, v.Capacity ≤ (v.Resize e n w).self.Capacity) ∧
      (∀ a, v.Capacity ≤ (v.EmplaceBack e a w).self.Capacity) ∧
      (∀ value, v.Capacity ≤ (v.PushBack e value w).self.Capacity) ∧
      (∀ value, v.Capacity ≤ (v.PushBackMove e value w).self.Capacity) ∧
      v.Capacity ≤ v.PopBack.Capacity ∧
      (∀ pos a, v.Capacity ≤ (v.Emplace e pos a w).self.Capacity) ∧
      (∀ pos value, v.Capacity ≤ (v.Insert e pos value w).self.Capacity) ∧
      (∀ pos value, v.Capacity ≤ (v.InsertMove e pos value w).self.Capacity) ∧
      (∀ pos, v.Capacity ≤ (v.Erase e pos).1.Capacity) ∧
      (∀ rhs, v.Capacity ≤ (v.copyAssign e rhs w).self.Capacity) :=
  ⟨fun n => Reserve_cap_mono e v n w, fun n => Resize_cap_mono e v n w,
    fun a => EmplaceBack_cap_mono e v a w,
    fun value => EmplaceBack_cap_mono e v (.copy value) w,
    fun value => EmplaceBack_cap_mono e v (.move (some value)) w, Nat.le_refl _,
    fun pos a => Emplace_cap_mono e v pos a w,
    fun pos value => Insert_cap_mono e v pos value w,
    fun pos value => Emplace_cap_mono e v pos (.move (some value)) w,
    fun _ => Nat.le_refl _, fun rhs => copyAssign_cap_mono e v rhs w⟩

end JustForFan
